import Mathlib

/-!
Shallow embedding of the risk-score aggregation engine of the
`mcf-dashboard` repository (file `src/utils/risk_score.py`).

Modelling conventions:
* A pandas cell is `Option ℚ`: `none` models `NaN`; rationals model the
  float values exactly (the claims under study are structural/ordering
  properties, insensitive to float rounding).  `±inf` has no rational
  counterpart, so `s.replace([np.inf, -np.inf], np.nan)` is a no-op here;
  the corresponding call sites are marked with comments.
* A pandas `Series` is a `List (Option ℚ)`, positionally aligned with the
  date index of the `DataFrame` it was taken from.
* A CSV file is a list of rows `(date, cells)` plus a header of the
  non-date column names; dates are `ℤ` (what matters to the engine is
  only their order and equality).  A *missing* file is `Option.none` at
  the `DataStore` level, and loading it produces `Except.error`,
  mirroring the `FileNotFoundError` raised by `_load_processed_csv`.
* `pandas.Series.std()` (ddof = 1) is `sqrt` of the sample variance.
  The guard `s.std() > 0` is embedded as `0 < sampleVar s`, which is
  equivalent because `Real.sqrt` is positive exactly on positives (and a
  `NaN` std compares false with `> 0`, matching the `none` case).  Where
  the *value* of the std is used (inside a z-score) we divide by
  `ratSqrt (sampleVar s)`, an exact rational square root: it agrees with
  the source's `sqrt` exactly when the variance is a perfect rational
  square, and concrete evaluations below only use such inputs.
-/

abbrev Val := Option ℚ

abbrev Series := List Val

/-- Exact rational square root: the nonnegative rational `r` with
`r * r = q` when it exists, else `0`.  Agrees with the source's float
`sqrt` on perfect rational squares (the only inputs where an exact
development can evaluate it). -/
def ratSqrt (q : ℚ) : ℚ :=
  if q ≤ 0 then 0
  else
    let n := Nat.sqrt q.num.toNat
    let d := Nat.sqrt q.den
    if q.num = (n : ℤ) * n ∧ q.den = d * d then (n : ℚ) / d else 0

/-- The non-missing values of a series, in order (`Series.dropna()`). -/
def dropNone (s : Series) : List ℚ := s.filterMap id

/-- `Series.mean()`: mean over non-missing entries, `NaN` when there are
none. -/
def smean (s : Series) : Option ℚ :=
  let xs := dropNone s
  if xs.isEmpty then none else some (xs.sum / xs.length)

/-- Sample variance (`ddof = 1`), the square of `Series.std()`:
`NaN` when fewer than two non-missing entries. -/
def sampleVar (s : Series) : Option ℚ :=
  let xs := dropNone s
  if xs.length < 2 then none
  else some ((xs.map (fun x => (x - xs.sum / xs.length) ^ 2)).sum / ((xs.length : ℚ) - 1))

/-- The guard `s.std() > 0` of the source: equivalent to a positive
sample variance (`sqrt` is positive iff its argument is, and a `NaN`
std compares false under `>`). -/
def stdPos (s : Series) : Bool :=
  match sampleVar s with
  | some v => decide (0 < v)
  | none => false

/-- `Series.std()` (ddof = 1) as an exact rational, via `ratSqrt`. -/
def sampleStd (s : Series) : Option ℚ :=
  (sampleVar s).map ratSqrt

/-- `(s - s.mean()) / s.std()`: elementwise z-score; `NaN` cells stay
`NaN`.  (Only reached under the `std > 0` guard in the source, where
mean and std are both defined.) -/
def zscoreS (s : Series) : Series :=
  match smean s, sampleStd s with
  | some μ, some σ => s.map (Option.map (fun x => (x - μ) / σ))
  | _, _ => s.map (fun _ => none)

/-- Elementwise negation of a series (`-s`); `NaN` stays `NaN`. -/
def sneg (s : Series) : Series := s.map (Option.map (fun x => -x))

/-- Elementwise sum of two aligned series; `NaN` is absorbing, as in
pandas. -/
def sadd (a b : Series) : Series :=
  List.zipWith (fun x y =>
    match x, y with
    | some u, some v => some (u + v)
    | _, _ => none) a b

/-- Python's `sum(components)` over a non-empty list of aligned series
(`0 + s` broadcasts to `s`, so the sum is the elementwise fold). -/
def ssum : List Series → Series
  | [] => []
  | s :: r => r.foldl sadd s

/-- `sum(components) / len(components)`: the unweighted mean of a list of
aligned series. -/
def meanComps (l : List Series) : Series :=
  (ssum l).map (Option.map (fun x => x / (l.length : ℚ)))

/-- Minimum of a list of rationals (`Series.min()` after dropping `NaN`). -/
def listMin : List ℚ → Option ℚ
  | [] => none
  | x :: xs => some (xs.foldl min x)

/-- Maximum of a list of rationals (`Series.max()` after dropping `NaN`). -/
def listMax : List ℚ → Option ℚ
  | [] => none
  | x :: xs => some (xs.foldl max x)

/-- `_scale_to_0_100`: linear min/max rescale to 0–100.
(`s.replace([inf, -inf], nan)` is a no-op over ℚ.)  If min or max is
`NaN` (all entries missing) the result is all-`NaN`; if `max == min`
the result is `50.0` at every index, as in the source. -/
def scaleFull (s : Series) : Series :=
  match listMin (dropNone s), listMax (dropNone s) with
  | some mn, some mx =>
      if mx = mn then s.map (fun _ => some 50)
      else s.map (Option.map (fun x => (x - mn) / (mx - mn) * 100))
  | _, _ => s.map (fun _ => none)

/-- Linear-interpolation quantile of an ascending-sorted list of values,
as `numpy`/pandas compute it (`interpolation='linear'`):
position `h = (n-1)·q`, `i = ⌊h⌋`, result `x_i + (h-i)·(x_{i+1} - x_i)`. -/
def quantileSorted (xs : List ℚ) (q : ℚ) : Option ℚ :=
  match xs with
  | [] => none
  | _ =>
    let h : ℚ := ((xs.length : ℚ) - 1) * q
    let i : ℕ := (Rat.floor h).toNat
    let x0 := xs.getD i 0
    let x1 := xs.getD (i + 1) x0
    some (x0 + (h - (i : ℚ)) * (x1 - x0))

/-- `Series.quantile(q)`: drop `NaN`, sort ascending, interpolate. -/
def squantile (s : Series) (q : ℚ) : Option ℚ :=
  quantileSorted (List.insertionSort (· ≤ ·) (dropNone s)) q

/-- `s.clip(lower, upper)`: the lower bound is applied first, then the
upper, exactly as pandas does. -/
def clipQ (lo hi x : ℚ) : ℚ := min (max x lo) hi

/-- `_scale_to_0_100_robust`: percentile-clipped rescale to 0–100.
(`replace(inf, nan)` is again a no-op.)  Empty after `dropna` gives
all-`NaN`; coinciding percentiles give `50.0` everywhere; otherwise clip
to the percentile band and map it linearly onto `[0,100]`. -/
def scaleRobust (s : Series) (lo hi : ℚ) : Series :=
  if (dropNone s).isEmpty then s.map (fun _ => none)
  else
    match squantile s lo, squantile s hi with
    | some ql, some qh =>
        if qh = ql then s.map (fun _ => some 50)
        else s.map (Option.map (fun x => (clipQ ql qh x - ql) / (qh - ql) * 100))
    | _, _ => s.map (fun _ => none)

/-- `_apply_scaling`: `mode or "full"`, lowercased; `"robust"` selects
the percentile scaler, anything else the full-history scaler. -/
def applyScaling (s : Series) (mode : String) (lo hi : ℚ) : Series :=
  let m := (if mode = "" then "full" else mode).toLower
  if m = "robust" then scaleRobust s lo hi else scaleFull s

/-- `Series.shift(1)`: every value moves down one position, the first
entry becomes `NaN`, the last raw value drops off the end. -/
def shiftS (s : Series) : Series :=
  match s with
  | [] => []
  | _ => none :: s.dropLast

/-- One processed CSV file: the names of the non-date columns, and the
rows, each a parsed date plus the cells of the non-date columns. -/
structure RawCSV where
  colNames : List String
  rows : List (ℤ × List Val)
deriving DecidableEq

/-- A `DataFrame` with a date index: the index and the named columns,
each column positionally aligned with the index. -/
structure DFrame where
  idx : List ℤ
  cols : List (String × Series)
deriving DecidableEq

/-- Order on CSV rows by date, used by `sort_index()`. -/
def rowLe (a b : ℤ × List Val) : Prop := a.1 ≤ b.1

instance : DecidableRel rowLe := fun a b => inferInstanceAs (Decidable (a.1 ≤ b.1))

instance : IsTotal (ℤ × List Val) rowLe := ⟨fun a b => le_total a.1 b.1⟩

instance : IsTrans (ℤ × List Val) rowLe := ⟨fun _ _ _ h1 h2 => le_trans h1 h2⟩

/-- `_load_processed_csv`: a missing file raises `FileNotFoundError`
(embedded as `Except.error`); otherwise parse dates, `set_index` on the
date column and `sort_index()`.  Note: rows are only sorted — no
deduplication of dates happens here. -/
def loadProcessedCSV (file : Option RawCSV) (name : String) : Except String DFrame :=
  match file with
  | none => .error (name ++ " not found. Run the pipeline for " ++ name ++ " first.")
  | some csv =>
      let sorted := List.insertionSort rowLe csv.rows
      .ok { idx := sorted.map Prod.fst
            cols := csv.colNames.enum.map
              (fun p => (p.2, sorted.map (fun r => r.2.getD p.1 none))) }

/-- `df.get(name)`: the named column, or `None` when absent. -/
def getCol (df : DFrame) (name : String) : Option Series :=
  (df.cols.find? (fun p => p.1 == name)).map (·.2)

/-- `df.get(name, df.get(fallback))`: first alias that resolves. -/
def getColD (df : DFrame) (name fallback : String) : Option Series :=
  match getCol df name with
  | some s => some s
  | none => getCol df fallback

/-- `pd.Series(np.nan, index=df.index)`. -/
def allNone (df : DFrame) : Series := df.idx.map (fun _ => none)

/-- The seven processed CSV files `compute_macro_risk_score` reads,
keyed by file; `none` models a file that does not exist on disk. -/
structure DataStore where
  fedLiquidity : Option RawCSV
  yieldCurve : Option RawCSV
  creditSpreads : Option RawCSV
  fxLiquidity : Option RawCSV
  fundingStress : Option RawCSV
  volatilityRegimes : Option RawCSV
  growthLeading : Option RawCSV
deriving DecidableEq

/-- The guarded z-score contributors of `_compute_fed_liquidity_score`:
`+z(Fed_Balance_Sheet)`, `-z(TGA)`, `-z(RRP)`, each kept only when the
column exists and its std is positive. -/
def fedComps (df : DFrame) : List Series :=
  (match getCol df "Fed_Balance_Sheet" with
   | some s => if stdPos s then [zscoreS s] else []
   | none => []) ++
  (match getColD df "TGA_Balance" "closing_balance" with
   | some s => if stdPos s then [sneg (zscoreS s)] else []
   | none => []) ++
  (match getCol df "RRP_Usage" with
   | some s => if stdPos s then [sneg (zscoreS s)] else []
   | none => [])

/-- Body of `_compute_fed_liquidity_score` after the load. -/
def fedScoreOfDF (df : DFrame) (mode : String) (lo hi : ℚ) : Series :=
  let comps := fedComps df
  if comps.isEmpty then allNone df
  else applyScaling (meanComps comps) mode lo hi

/-- `_compute_fed_liquidity_score`. -/
def computeFedLiquidityScore (st : DataStore) (mode : String) (lo hi : ℚ) :
    Except String (List ℤ × Series) := do
  let df ← loadProcessedCSV st.fedLiquidity "fed_liquidity.csv"
  pure (df.idx, fedScoreOfDF df mode lo hi)

/-- The spread columns of `_compute_yield_curve_score`
(raw, unnegated, no z-scoring). -/
def curveComps (df : DFrame) : List Series :=
  (match getCol df "Spread_2s10s" with
   | some s => [s]
   | none => []) ++
  (match getCol df "Spread_3m10y" with
   | some s => [s]
   | none => [])

/-- Body of `_compute_yield_curve_score` after the load. -/
def curveScoreOfDF (df : DFrame) (mode : String) (lo hi : ℚ) : Series :=
  let spreads := curveComps df
  if spreads.isEmpty then allNone df
  else applyScaling (meanComps spreads) mode lo hi

/-- `_compute_yield_curve_score`. -/
def computeYieldCurveScore (st : DataStore) (mode : String) (lo hi : ℚ) :
    Except String (List ℤ × Series) := do
  let df ← loadProcessedCSV st.yieldCurve "yield_curve.csv"
  pure (df.idx, curveScoreOfDF df mode lo hi)

/-- The contributors of `_compute_credit_score`: the raw negated OAS
series (no z-scoring, no std guard). -/
def creditComps (df : DFrame) : List Series :=
  (match getCol df "HY_OAS" with
   | some s => [sneg s]
   | none => []) ++
  (match getCol df "IG_OAS" with
   | some s => [sneg s]
   | none => [])

/-- Body of `_compute_credit_score` after the load. -/
def creditScoreOfDF (df : DFrame) (mode : String) (lo hi : ℚ) : Series :=
  if getCol df "HY_OAS" = none ∧ getCol df "IG_OAS" = none then allNone df
  else applyScaling (meanComps (creditComps df)) mode lo hi

/-- `_compute_credit_score`. -/
def computeCreditScore (st : DataStore) (mode : String) (lo hi : ℚ) :
    Except String (List ℤ × Series) := do
  let df ← loadProcessedCSV st.creditSpreads "credit_spreads.csv"
  pure (df.idx, creditScoreOfDF df mode lo hi)

/-- The guarded z-score contributors of `_compute_fx_score`:
`-z(DXY)` and `+z(EM_FX_Basket)`. -/
def fxComps (df : DFrame) : List Series :=
  (match getCol df "DXY" with
   | some s => if stdPos s then [sneg (zscoreS s)] else []
   | none => []) ++
  (match getCol df "EM_FX_Basket" with
   | some s => if stdPos s then [zscoreS s] else []
   | none => [])

/-- Body of `_compute_fx_score` after the load. -/
def fxScoreOfDF (df : DFrame) (mode : String) (lo hi : ℚ) : Series :=
  if getCol df "DXY" = none ∧ getCol df "EM_FX_Basket" = none then allNone df
  else
    let comps := fxComps df
    if comps.isEmpty then allNone df
    else applyScaling (meanComps comps) mode lo hi

/-- `_compute_fx_score`. -/
def computeFxScore (st : DataStore) (mode : String) (lo hi : ℚ) :
    Except String (List ℤ × Series) := do
  let df ← loadProcessedCSV st.fxLiquidity "fx_liquidity.csv"
  pure (df.idx, fxScoreOfDF df mode lo hi)

/-- The contributors of `_compute_funding_score`: raw negated spreads
(no z-scoring, no std guard). -/
def fundingComps (df : DFrame) : List Series :=
  (match getCol df "EFFR_minus_SOFR" with
   | some s => [sneg s]
   | none => []) ++
  (match getCol df "EFFR_minus_OBFR" with
   | some s => [sneg s]
   | none => [])

/-- Body of `_compute_funding_score` after the load. -/
def fundingScoreOfDF (df : DFrame) (mode : String) (lo hi : ℚ) : Series :=
  if getCol df "EFFR_minus_SOFR" = none ∧ getCol df "EFFR_minus_OBFR" = none then allNone df
  else applyScaling (meanComps (fundingComps df)) mode lo hi

/-- `_compute_funding_score`. -/
def computeFundingScore (st : DataStore) (mode : String) (lo hi : ℚ) :
    Except String (List ℤ × Series) := do
  let df ← loadProcessedCSV st.fundingStress "funding_stress.csv"
  pure (df.idx, fundingScoreOfDF df mode lo hi)

/-- The guarded z-score contributors of `_compute_volatility_score`:
`-z(VIX)`, `-z(term ratio)`, `-z(MOVE)`, smoothed aliases preferred. -/
def volComps (df : DFrame) : List Series :=
  (match getColD df "VIX_Short_SMA5" "VIX_Short" with
   | some s => if stdPos s then [sneg (zscoreS s)] else []
   | none => []) ++
  (match getColD df "VIX_Term_Ratio_SMA5" "VIX_Term_Ratio" with
   | some s => if stdPos s then [sneg (zscoreS s)] else []
   | none => []) ++
  (match getColD df "MOVE_SMA20" "MOVE_Index" with
   | some s => if stdPos s then [sneg (zscoreS s)] else []
   | none => [])

/-- Body of `_compute_volatility_score` after the load. -/
def volScoreOfDF (df : DFrame) (mode : String) (lo hi : ℚ) : Series :=
  if getColD df "VIX_Short_SMA5" "VIX_Short" = none ∧
     getColD df "VIX_Term_Ratio_SMA5" "VIX_Term_Ratio" = none ∧
     getColD df "MOVE_SMA20" "MOVE_Index" = none then allNone df
  else
    let comps := volComps df
    if comps.isEmpty then allNone df
    else applyScaling (meanComps comps) mode lo hi

/-- `_compute_volatility_score`. -/
def computeVolatilityScore (st : DataStore) (mode : String) (lo hi : ℚ) :
    Except String (List ℤ × Series) := do
  let df ← loadProcessedCSV st.volatilityRegimes "volatility_regimes.csv"
  pure (df.idx, volScoreOfDF df mode lo hi)

/-- The lagged columns of `_compute_growth_leading_score`:
`ISM_Spread.shift(1)` and `Initial_Claims(_4WMA).shift(1)`. -/
def growthLagged (df : DFrame) : Option Series × Option Series :=
  ((getCol df "ISM_Spread").map shiftS,
   (getColD df "Initial_Claims_4WMA" "Initial_Claims").map shiftS)

/-- The guarded z-score contributors of `_compute_growth_leading_score`,
built from the lagged series: `+z(lagged ISM spread)`,
`-z(lagged claims)`. -/
def growthComps (df : DFrame) : List Series :=
  (match (growthLagged df).1 with
   | some s => if stdPos s then [zscoreS s] else []
   | none => []) ++
  (match (growthLagged df).2 with
   | some s => if stdPos s then [sneg (zscoreS s)] else []
   | none => [])

/-- Body of `_compute_growth_leading_score` after the load. -/
def growthScoreOfDF (df : DFrame) (mode : String) (lo hi : ℚ) : Series :=
  if (growthLagged df).1 = none ∧ (growthLagged df).2 = none then allNone df
  else
    let comps := growthComps df
    if comps.isEmpty then allNone df
    else applyScaling (meanComps comps) mode lo hi

/-- `_compute_growth_leading_score`. -/
def computeGrowthLeadingScore (st : DataStore) (mode : String) (lo hi : ℚ) :
    Except String (List ℤ × Series) := do
  let df ← loadProcessedCSV st.growthLeading "growth_leading.csv"
  pure (df.idx, growthScoreOfDF df mode lo hi)

/-- `series.reindex(target)`.  pandas first takes the identical-axes
fast path: when the requested index equals the series' own index it
just returns a copy.  Otherwise building the indexer requires a unique
source index — a duplicate-labelled source raises
`ValueError: cannot reindex on an axis with duplicate labels`.  On a
unique source index the result holds the value at each target date,
`NaN` where the date is absent from the source index (the first-match
lookup below coincides with pandas' lookup because the index is unique
on that branch). -/
def reindexS (idx : List ℤ) (vals : Series) (target : List ℤ) : Except String Series :=
  if target = idx then .ok vals
  else if idx.Nodup then
    .ok (target.map (fun d =>
      match (idx.zip vals).find? (fun p => p.1 == d) with
      | some p => p.2
      | none => none))
  else .error "cannot reindex on an axis with duplicate labels"

/-- `DataFrame.ffill()` on one column, given the last value seen so far. -/
def ffillAux : Val → Series → Series
  | _, [] => []
  | last, v :: rest =>
      match v with
      | some x => some x :: ffillAux (some x) rest
      | none => last :: ffillAux last rest

/-- `DataFrame.ffill()` on one column: propagate the last non-missing
value forward across gaps; leading gaps stay missing. -/
def ffill (s : Series) : Series := ffillAux none s

/-- `Index.union`: sorted union of two date indexes.  pandas keeps
duplicate labels with their maximum multiplicity
(`Index([1,1,2,2]).union(Index([2,2,3,3])) = Index([1,1,2,2,3,3])`);
`a ++ b.diff a` holds each value `max(countₐ, count_b)` times. -/
def indexUnion (a b : List ℤ) : List ℤ :=
  List.insertionSort (· ≤ ·) (a ++ b.diff a)

/-- The weights dict of `compute_macro_risk_score`, in the column order
of the `scores` frame (`0.22, 0.18, 0.18, 0.13, 0.09, 0.10, 0.10`). -/
def weightsList : List ℚ :=
  [22/100, 18/100, 18/100, 13/100, 9/100, 10/100, 10/100]

/-- The component-score column names, in construction order. -/
def scoreNames : List String :=
  ["fed_liquidity_score", "curve_score", "credit_score", "fx_score",
   "funding_score", "volatility_score", "growth_leading_score"]

/-- One iteration of the per-date loop of `compute_macro_risk_score`:
drop the missing components of the row, renormalize their weights to
sum to 1, and take the weighted sum (`(valid * w).sum()` with
`w = w / w.sum()` equals `Σ wᵢ·xᵢ / Σ wᵢ` exactly).  In the source the
weights are fetched from the dict by column name; the column set is
fixed, so the row arrives here as (weight, value) pairs. -/
def macroRow (pairs : List (ℚ × Val)) : Val :=
  let valid := pairs.filterMap (fun p => p.2.map (fun x => (p.1, x)))
  if valid.isEmpty then none
  else some ((valid.map (fun p => p.1 * p.2)).sum / (valid.map Prod.fst).sum)

/-- The `macro_score` column: the per-date loop over the rows of the
seven (already forward-filled) component columns. -/
def macroSeries (n : ℕ) (cols : List Series) : Series :=
  (List.range n).map (fun i =>
    macroRow (weightsList.zip (cols.map (fun c => c.getD i none))))

/-- The `scores` frame of `compute_macro_risk_score` up to (and
including) the `ffill`: the union date index and the seven component
columns reindexed onto it and forward-filled.  The seven reindexes run
in the source's column-assignment order, so a duplicate-labelled
component index raises at the first offending assignment; the union
index is built sorted, so the subsequent `sort_index()` is the identity
on it. -/
def componentTable (st : DataStore) (mode : String) (lo hi : ℚ) :
    Except String (List ℤ × List Series) := do
  let fed ← computeFedLiquidityScore st mode lo hi
  let curve ← computeYieldCurveScore st mode lo hi
  let credit ← computeCreditScore st mode lo hi
  let fx ← computeFxScore st mode lo hi
  let funding ← computeFundingScore st mode lo hi
  let vol ← computeVolatilityScore st mode lo hi
  let growth ← computeGrowthLeadingScore st mode lo hi
  let allIdx := indexUnion (indexUnion (indexUnion (indexUnion (indexUnion
                  (indexUnion fed.1 curve.1) credit.1) fx.1) funding.1) vol.1) growth.1
  let fedR ← reindexS fed.1 fed.2 allIdx
  let curveR ← reindexS curve.1 curve.2 allIdx
  let creditR ← reindexS credit.1 credit.2 allIdx
  let fxR ← reindexS fx.1 fx.2 allIdx
  let fundingR ← reindexS funding.1 funding.2 allIdx
  let volR ← reindexS vol.1 vol.2 allIdx
  let growthR ← reindexS growth.1 growth.2 allIdx
  pure (allIdx, [ffill fedR, ffill curveR, ffill creditR, ffill fxR,
                 ffill fundingR, ffill volR, ffill growthR])

/-- `compute_macro_risk_score`: the seven component columns plus the
`macro_score` column, on the union date index. -/
def computeMacroRiskScore (st : DataStore) (mode : String) (lo hi : ℚ) :
    Except String DFrame := do
  let t ← componentTable st mode lo hi
  pure { idx := t.1
         cols := scoreNames.zip t.2 ++ [("macro_score", macroSeries t.1.length t.2)] }

/-- A cell of the output table is either missing or a score in the
closed band `[0, 100]`. -/
def ValInRange (v : Val) : Prop :=
  v = none ∨ ∃ x, v = some x ∧ 0 ≤ x ∧ x ≤ 100

/-- The spec's dataset invariant: the dates of a processed CSV are
pairwise distinct (the loader itself never enforces this). -/
def csvDatesNodup (csv : RawCSV) : Prop :=
  (csv.rows.map Prod.fst).Nodup

/-- Population variance (`ddof = 0`), as the spec's z-score glossary
prescribes; `NaN` when no non-missing entry exists.  This is the
*specification-side* notion — the source divides by the sample std
(`ddof = 1`) instead. -/
def popVar (s : Series) : Option ℚ :=
  let xs := dropNone s
  if xs.isEmpty then none
  else some ((xs.map (fun x => (x - xs.sum / xs.length) ^ 2)).sum / (xs.length : ℚ))

/-- The z-score the specification describes, built from the spec's
words (not from the source): `(x - mean(x)) / population_stddev(x)`,
with an all-zero series when the stddev is zero or undefined. -/
def specZscore (s : Series) : Series :=
  match smean s, (popVar s).map ratSqrt with
  | some μ, some σ =>
      if σ = 0 then s.map (Option.map (fun _ => 0))
      else s.map (Option.map (fun x => (x - μ) / σ))
  | _, _ => s.map (Option.map (fun _ => 0))

/-! ## Basic lemmas about the series primitives -/

theorem except_bind_ok {ε α β : Type} (x : Except ε α) (f : α → Except ε β) (b : β) :
    (x >>= f) = .ok b ↔ ∃ a, x = .ok a ∧ f a = .ok b := by
  cases x <;> simp [Bind.bind, Except.bind]

theorem mem_dropNone {s : Series} {x : ℚ} : x ∈ dropNone s ↔ some x ∈ s := by
  simp [dropNone, List.mem_filterMap]

theorem dropNone_map_some (l : List ℚ) : dropNone (l.map some) = l := by
  simp [dropNone, List.filterMap_map]

theorem foldl_min_eq {x : ℚ} {xs : List ℚ} (h : ∀ y ∈ xs, x ≤ y) :
    xs.foldl min x = x := by
  induction xs with
  | nil => rfl
  | cons y ys ih =>
      have hxy : min x y = x := min_eq_left (h y (by simp))
      simp only [List.foldl_cons, hxy]
      exact ih (fun z hz => h z (by simp [hz]))

theorem foldl_min_le {xs : List ℚ} : ∀ {x : ℚ}, xs.foldl min x ≤ x := by
  induction xs with
  | nil => intro x; exact le_refl x
  | cons y ys ih => intro x; exact le_trans ih (min_le_left x y)

theorem foldl_min_le_mem {xs : List ℚ} {y : ℚ} (hy : y ∈ xs) :
    ∀ {x : ℚ}, xs.foldl min x ≤ y := by
  induction xs with
  | nil => cases hy
  | cons z zs ih =>
      intro x
      rcases List.mem_cons.1 hy with rfl | hy'
      · simp only [List.foldl_cons]
        exact le_trans foldl_min_le (min_le_right x y)
      · exact ih hy'

theorem foldl_max_eq {x : ℚ} {xs : List ℚ} (h : ∀ y ∈ xs, y ≤ x) :
    xs.foldl max x = x := by
  induction xs with
  | nil => rfl
  | cons y ys ih =>
      have hxy : max x y = x := max_eq_left (h y (by simp))
      simp only [List.foldl_cons, hxy]
      exact ih (fun z hz => h z (by simp [hz]))

theorem le_foldl_max {xs : List ℚ} : ∀ {x : ℚ}, x ≤ xs.foldl max x := by
  induction xs with
  | nil => intro x; exact le_refl x
  | cons y ys ih => intro x; exact le_trans (le_max_left x y) ih

theorem mem_le_foldl_max {xs : List ℚ} {y : ℚ} (hy : y ∈ xs) :
    ∀ {x : ℚ}, y ≤ xs.foldl max x := by
  induction xs with
  | nil => cases hy
  | cons z zs ih =>
      intro x
      rcases List.mem_cons.1 hy with rfl | hy'
      · simp only [List.foldl_cons]
        exact le_trans (le_max_right x y) le_foldl_max
      · exact ih hy'

theorem listMin_le {l : List ℚ} {m x : ℚ} (hm : listMin l = some m) (hx : x ∈ l) :
    m ≤ x := by
  cases l with
  | nil => cases hx
  | cons a t =>
      simp only [listMin, Option.some.injEq] at hm
      subst hm
      rcases List.mem_cons.1 hx with rfl | hx'
      · exact foldl_min_le
      · exact foldl_min_le_mem hx'

theorem le_listMax {l : List ℚ} {m x : ℚ} (hm : listMax l = some m) (hx : x ∈ l) :
    x ≤ m := by
  cases l with
  | nil => cases hx
  | cons a t =>
      simp only [listMax, Option.some.injEq] at hm
      subst hm
      rcases List.mem_cons.1 hx with rfl | hx'
      · exact le_foldl_max
      · exact mem_le_foldl_max hx'

theorem listMin_const {l : List ℚ} {c : ℚ} (hne : l ≠ []) (hc : ∀ x ∈ l, x = c) :
    listMin l = some c := by
  cases l with
  | nil => exact absurd rfl hne
  | cons a t =>
      have ha : a = c := hc a (by simp)
      subst ha
      simp only [listMin, Option.some.injEq]
      exact foldl_min_eq (fun y hy => le_of_eq (hc y (by simp [hy])).symm)

theorem listMax_const {l : List ℚ} {c : ℚ} (hne : l ≠ []) (hc : ∀ x ∈ l, x = c) :
    listMax l = some c := by
  cases l with
  | nil => exact absurd rfl hne
  | cons a t =>
      have ha : a = c := hc a (by simp)
      subst ha
      simp only [listMax, Option.some.injEq]
      exact foldl_max_eq (fun y hy => le_of_eq (hc y (by simp [hy]))
        )

theorem ratFloor_eq_floor (q : ℚ) : Rat.floor q = ⌊q⌋ := by
  rw [Rat.floor_def]
  exact Rat.floor_def' q

theorem quantileSorted_const {xs : List ℚ} {c : ℚ} {q : ℚ}
    (hne : xs ≠ []) (hc : ∀ x ∈ xs, x = c) (hq0 : 0 ≤ q) (hq1 : q ≤ 1) :
    quantileSorted xs q = some c := by
  obtain ⟨a, t, rfl⟩ := List.exists_cons_of_ne_nil hne
  simp only [quantileSorted, ratFloor_eq_floor]
  set n := (a :: t).length with hn
  have hn1 : 1 ≤ n := by simp [hn]
  set h : ℚ := ((n : ℚ) - 1) * q with hh
  have h0 : 0 ≤ h := by
    apply mul_nonneg _ hq0
    have : (1 : ℚ) ≤ (n : ℚ) := by exact_mod_cast hn1
    linarith
  have hle : h ≤ (n : ℚ) - 1 := by
    have h1 : (0 : ℚ) ≤ (n : ℚ) - 1 := by
      have : (1 : ℚ) ≤ (n : ℚ) := by exact_mod_cast hn1
      linarith
    calc h = ((n : ℚ) - 1) * q := hh
    _ ≤ ((n : ℚ) - 1) * 1 := by exact mul_le_mul_of_nonneg_left hq1 h1
    _ = (n : ℚ) - 1 := by ring
  set i : ℕ := (Int.floor h).toNat with hi
  have hin : i < n := by
    have hfl : Int.floor h ≤ (n : ℤ) - 1 := by
      have : ((n : ℚ) - 1) = (((n : ℤ) - 1 : ℤ) : ℚ) := by push_cast; ring
      rw [this] at hle
      exact Int.le_floor.mp (le_of_eq rfl) |>.trans (Int.floor_le_floor hle) |>.trans_eq (Int.floor_intCast _)
    omega
  have hx0 : (a :: t).getD i 0 = c := by
    rw [List.getD_eq_getElem _ _ hin]
    exact hc _ (List.getElem_mem hin)
  have hx1 : (a :: t).getD (i + 1) ((a :: t).getD i 0) = c := by
    by_cases hi1 : i + 1 < n
    · rw [List.getD_eq_getElem _ _ hi1]
      exact hc _ (List.getElem_mem hi1)
    · rw [List.getD_eq_default _ _ (by omega), hx0]
  rw [hx1, hx0]
  simp

/-! ## C6: the Dataset Loader sorts but does not deduplicate -/

theorem loadProcessedCSV_some_idx {csv : RawCSV} {name : String} {df : DFrame}
    (h : loadProcessedCSV (some csv) name = .ok df) :
    df.idx = (List.insertionSort rowLe csv.rows).map Prod.fst := by
  simp only [loadProcessedCSV, Except.ok.injEq] at h
  rw [← h]

/-- C6 counterexample: a CSV whose rows carry the date 5 twice is loaded
into a frame whose index still contains 5 twice — the loader does not
deduplicate dates, contradicting the claim that each date occurs at most
once in the loaded index. -/
theorem C6_loader_keeps_duplicate_dates_counterexample :
    (loadProcessedCSV
        (some { colNames := ["A"],
                rows := [(5, [some 1]), (5, [some 2]), (3, [some 0])] }) "x.csv").toOption.map
      DFrame.idx = some [3, 5, 5] ∧ ¬ ([(3 : ℤ), 5, 5].Nodup) := by
  constructor
  · rfl
  · decide

/-- C6 (amended): the table returned by the Dataset Loader has a date
index sorted ascending (non-decreasing), and duplicate dates are
retained as-is — one output row per input row, no deduplication. -/
theorem C6_loader_sorts_and_keeps_all_rows (csv : RawCSV) (name : String) (df : DFrame)
    (h : loadProcessedCSV (some csv) name = .ok df) :
    List.Sorted (· ≤ ·) df.idx ∧ df.idx.length = csv.rows.length := by
  have hidx := loadProcessedCSV_some_idx h
  constructor
  · rw [hidx]
    have hs := List.sorted_insertionSort rowLe csv.rows
    exact List.pairwise_map.2 hs
  · rw [hidx, List.length_map, (List.perm_insertionSort rowLe csv.rows).length_eq]

theorem C6_loader_sorts_and_keeps_all_rows_witness :
    List.Sorted (· ≤ ·) (DFrame.idx ⟨[3, 5], [("A", [some 0, some 1])]⟩) ∧
      (DFrame.idx ⟨[3, 5], [("A", [some 0, some 1])]⟩).length =
        (RawCSV.rows ⟨["A"], [(5, [some 1]), (3, [some 0])]⟩).length :=
  C6_loader_sorts_and_keeps_all_rows ⟨["A"], [(5, [some 1]), (3, [some 0])]⟩ "x.csv"
    ⟨[3, 5], [("A", [some 0, some 1])]⟩ (by rfl)

/-! ## C7: zero-variance input scales to the constant 50 -/

/-- C7: a non-empty series whose non-missing values all equal `c` (and
which has at least one non-missing value) is mapped to the constant
score 50 at every index by both scaling functions — the zero-denominator
branch is cut off by the equality guard in each. -/
theorem C7_constant_series_scales_to_50 (s : Series) (c : ℚ) (lo hi : ℚ)
    (hmem : some c ∈ s) (hconst : ∀ v ∈ s, v = none ∨ v = some c)
    (hlo0 : 0 ≤ lo) (hlo1 : lo ≤ 1) (hhi0 : 0 ≤ hi) (hhi1 : hi ≤ 1) :
    scaleFull s = s.map (fun _ => some 50) ∧
      scaleRobust s lo hi = s.map (fun _ => some 50) := by
  have hd : ∀ x ∈ dropNone s, x = c := by
    intro x hx
    rcases hconst (some x) (mem_dropNone.1 hx) with h | h
    · cases h
    · exact (Option.some.injEq x c).mp h
  have hdne : dropNone s ≠ [] := by
    intro h
    exact (List.not_mem_nil c) (h ▸ mem_dropNone.2 hmem)
  constructor
  · rw [scaleFull, listMin_const hdne hd, listMax_const hdne hd]
    simp
  · have hsorted : ∀ x ∈ List.insertionSort (· ≤ ·) (dropNone s), x = c := by
      intro x hx
      exact hd x ((List.perm_insertionSort (· ≤ ·) (dropNone s)).mem_iff.1 hx)
    have hsne : List.insertionSort (· ≤ ·) (dropNone s) ≠ [] := by
      intro h
      apply hdne
      have := (List.perm_insertionSort (· ≤ ·) (dropNone s)).length_eq
      rw [h] at this
      exact List.eq_nil_of_length_eq_zero this.symm
    rw [scaleRobust]
    rw [if_neg (by simp [List.isEmpty_iff]; exact hdne)]
    rw [squantile, squantile, quantileSorted_const hsne hsorted hlo0 hlo1,
      quantileSorted_const hsne hsorted hhi0 hhi1]
    simp

theorem C7_constant_series_scales_to_50_witness :
    scaleFull [some 3, none, some 3] = [some 3, none, some 3].map (fun _ => some 50) ∧
      scaleRobust [some 3, none, some 3] (1/20) (19/20) =
        [some 3, none, some 3].map (fun _ => some 50) :=
  C7_constant_series_scales_to_50 [some 3, none, some 3] 3 (1/20) (19/20)
    (by decide) (by decide) (by norm_num) (by norm_num) (by norm_num) (by norm_num)

/-! ## C9: full-history scaling of a strictly increasing series -/

theorem listMin_sorted_head {l : List ℚ} (hne : l ≠ []) (hp : l.Pairwise (· ≤ ·)) :
    listMin l = some (l.head hne) := by
  cases l with
  | nil => exact absurd rfl hne
  | cons a t =>
      simp only [listMin, List.head_cons, Option.some.injEq]
      exact foldl_min_eq (List.pairwise_cons.1 hp).1

theorem listMax_sorted_getLast {l : List ℚ} (hne : l ≠ []) (hp : l.Pairwise (· ≤ ·)) :
    listMax l = some (l.getLast hne) := by
  induction l with
  | nil => exact absurd rfl hne
  | cons a t ih =>
      cases t with
      | nil => simp [listMax]
      | cons b r =>
          have hab : a ≤ b := (List.pairwise_cons.1 hp).1 b (by simp)
          have hrec := ih (by simp) (List.pairwise_cons.1 hp).2
          simp only [listMax, Option.some.injEq] at hrec ⊢
          rw [List.getLast_cons (by simp)]
          rw [← hrec]
          simp only [List.foldl_cons]
          rw [max_eq_right hab]

theorem getD_map_optionMap (s : Series) (f : ℚ → ℚ) (i : ℕ) :
    (s.map (Option.map f)).getD i none = Option.map f (s.getD i none) := by
  rw [List.getD_eq_getElem?_getD, List.getD_eq_getElem?_getD, List.getElem?_map]
  cases s[i]? <;> simp

/-- C9: for a fully observed series of at least two strictly increasing
points, full-history scaling maps the first point to 0, the last point
to 100, and is strictly increasing across the whole output. -/
theorem C9_full_scaling_strictly_increasing (vals : List ℚ)
    (hlen : 2 ≤ vals.length) (hinc : vals.Pairwise (· < ·)) :
    ((scaleFull (vals.map some)).getD 0 none = some 0) ∧
    ((scaleFull (vals.map some)).getD (vals.length - 1) none = some 100) ∧
    (∀ i j, i < j → j < vals.length →
      ∃ a b, (scaleFull (vals.map some)).getD i none = some a ∧
             (scaleFull (vals.map some)).getD j none = some b ∧ a < b) := by
  have hne : vals ≠ [] := by
    intro h; rw [h] at hlen; simp at hlen
  have hple : vals.Pairwise (· ≤ ·) := hinc.imp le_of_lt
  have hdrop : dropNone (vals.map some) = vals := dropNone_map_some vals
  have hget : ∀ (i j : ℕ) (hi : i < vals.length) (hj : j < vals.length), i < j →
      vals.get ⟨i, hi⟩ < vals.get ⟨j, hj⟩ := by
    intro i j hi hj hij
    exact List.pairwise_iff_get.1 hinc ⟨i, hi⟩ ⟨j, hj⟩ hij
  set mn := vals.head hne with hmn
  set mx := vals.getLast hne with hmx
  have hmnget : mn = vals.get ⟨0, by omega⟩ := List.head_eq_getElem_zero hne
  have hmxget : mx = vals.get ⟨vals.length - 1, by omega⟩ := List.getLast_eq_getElem vals hne
  have hlt : mn < mx := by
    rw [hmnget, hmxget]
    exact hget 0 (vals.length - 1) (by omega) (by omega) (by omega)
  have hne2 : vals.getLast hne ≠ vals.head hne := by
    rw [← hmn, ← hmx]; exact ne_of_gt hlt
  have hsf : scaleFull (vals.map some) =
      (vals.map some).map (Option.map (fun x => (x - mn) / (mx - mn) * 100)) := by
    simp only [scaleFull, hdrop, listMin_sorted_head hne hple, listMax_sorted_getLast hne hple]
    rw [if_neg hne2]
  have hpos : 0 < mx - mn := sub_pos.2 hlt
  have hval : ∀ (i : ℕ) (hi : i < vals.length),
      (scaleFull (vals.map some)).getD i none =
        some ((vals.get ⟨i, hi⟩ - mn) / (mx - mn) * 100) := by
    intro i hi
    rw [hsf, getD_map_optionMap, List.getD_eq_getElem?_getD, List.getElem?_map,
      List.getElem?_eq_getElem hi]
    simp
  refine ⟨?_, ?_, ?_⟩
  · rw [hval 0 (by omega), ← hmnget]
    simp
  · rw [hval (vals.length - 1) (by omega), ← hmxget]
    rw [div_self (ne_of_gt hpos)]
    norm_num
  · intro i j hij hj
    have hi2 : i < vals.length := lt_trans hij hj
    refine ⟨_, _, hval i hi2, hval j hj, ?_⟩
    have hlt2 := hget i j hi2 hj hij
    have h1 : vals.get ⟨i, hi2⟩ - mn < vals.get ⟨j, hj⟩ - mn := by linarith
    have h2 := div_lt_div_of_pos_right h1 hpos
    nlinarith [h2]

theorem C9_full_scaling_strictly_increasing_witness :
    ((scaleFull ([ (1 : ℚ), 3, 4].map some)).getD 0 none = some 0) ∧
    ((scaleFull ([ (1 : ℚ), 3, 4].map some)).getD ([(1 : ℚ), 3, 4].length - 1) none = some 100) ∧
    (∀ i j, i < j → j < [(1 : ℚ), 3, 4].length →
      ∃ a b, (scaleFull ([(1 : ℚ), 3, 4].map some)).getD i none = some a ∧
             (scaleFull ([(1 : ℚ), 3, 4].map some)).getD j none = some b ∧ a < b) :=
  C9_full_scaling_strictly_increasing [1, 3, 4] (by norm_num) (by norm_num)

/-! ## C8: robust scaling pins the percentile band to 0 and 100 -/

theorem sorted_getD_mono {xs : List ℚ} (hs : xs.Pairwise (· ≤ ·))
    {i j : ℕ} (hij : i ≤ j) (hj : j < xs.length) :
    xs.getD i 0 ≤ xs.getD j 0 := by
  rw [List.getD_eq_getElem _ _ (lt_of_le_of_lt hij hj), List.getD_eq_getElem _ _ hj]
  rcases eq_or_lt_of_le hij with rfl | hlt
  · exact le_refl _
  · exact List.pairwise_iff_get.1 hs ⟨i, lt_of_le_of_lt hij hj⟩ ⟨j, hj⟩ hlt

theorem quantileSorted_mono {xs : List ℚ} (hne : xs ≠ []) (hs : xs.Pairwise (· ≤ ·))
    (q1 q2 : ℚ) (hq0 : 0 ≤ q1) (h12 : q1 ≤ q2) (hq1 : q2 ≤ 1) :
    ∃ a b, quantileSorted xs q1 = some a ∧ quantileSorted xs q2 = some b ∧ a ≤ b := by
  obtain ⟨z, t, rfl⟩ := List.exists_cons_of_ne_nil hne
  simp only [quantileSorted, ratFloor_eq_floor]
  refine ⟨_, _, rfl, rfl, ?_⟩
  set xs := z :: t with hxs
  set n := xs.length with hn
  have hn1 : 1 ≤ n := by simp [hn, hxs]
  have hnn : (0 : ℚ) ≤ (n : ℚ) - 1 := by
    have : (1 : ℚ) ≤ (n : ℚ) := by exact_mod_cast hn1
    linarith
  set h1 : ℚ := ((n : ℚ) - 1) * q1 with hh1
  set h2 : ℚ := ((n : ℚ) - 1) * q2 with hh2
  have h1nn : 0 ≤ h1 := mul_nonneg hnn hq0
  have h2nn : 0 ≤ h2 := mul_nonneg hnn (le_trans hq0 h12)
  have h12' : h1 ≤ h2 := mul_le_mul_of_nonneg_left h12 hnn
  have h2le : h2 ≤ (n : ℚ) - 1 := by
    calc h2 = ((n : ℚ) - 1) * q2 := hh2
    _ ≤ ((n : ℚ) - 1) * 1 := mul_le_mul_of_nonneg_left hq1 hnn
    _ = (n : ℚ) - 1 := by ring
  set i1 : ℕ := (Int.floor h1).toNat with hi1
  set i2 : ℕ := (Int.floor h2).toNat with hi2
  clear_value i1 i2
  have hc1 : ((i1 : ℕ) : ℚ) = ((⌊h1⌋ : ℤ) : ℚ) := by
    rw [hi1]
    exact_mod_cast congrArg (fun z : ℤ => (z : ℚ)) (Int.toNat_of_nonneg (Int.floor_nonneg.2 h1nn))
  have hc2 : ((i2 : ℕ) : ℚ) = ((⌊h2⌋ : ℤ) : ℚ) := by
    rw [hi2]
    exact_mod_cast congrArg (fun z : ℤ => (z : ℚ)) (Int.toNat_of_nonneg (Int.floor_nonneg.2 h2nn))
  have hγ1nn : 0 ≤ h1 - (i1 : ℚ) := by
    rw [hc1]; exact sub_nonneg.2 (Int.floor_le h1)
  have hγ1lt : h1 - (i1 : ℚ) ≤ 1 := by
    rw [hc1]
    have := Int.lt_floor_add_one h1
    linarith
  have hγ2nn : 0 ≤ h2 - (i2 : ℚ) := by
    rw [hc2]; exact sub_nonneg.2 (Int.floor_le h2)
  have hi12 : i1 ≤ i2 := by
    have := Int.floor_le_floor h12'
    omega
  have hi2n : i2 < n := by
    have hfl : ⌊h2⌋ ≤ (n : ℤ) - 1 := by
      have hc : ((n : ℚ) - 1) = (((n : ℤ) - 1 : ℤ) : ℚ) := by push_cast; ring
      have := Int.floor_le_floor (hc ▸ h2le)
      rwa [Int.floor_intCast] at this
    omega
  have hi1n : i1 < n := lt_of_le_of_lt hi12 hi2n
  have hx01 : xs.getD i1 0 ≤ xs.getD (i1 + 1) (xs.getD i1 0) := by
    by_cases hb : i1 + 1 < n
    · rw [List.getD_eq_getElem _ _ hb, ← List.getD_eq_getElem xs 0 hb]
      exact sorted_getD_mono hs (Nat.le_succ i1) hb
    · have hdef : xs.getD (i1 + 1) (xs.getD i1 0) = xs.getD i1 0 :=
        List.getD_eq_default _ _ (by omega)
      rw [hdef]
  have hx02 : xs.getD i2 0 ≤ xs.getD (i2 + 1) (xs.getD i2 0) := by
    by_cases hb : i2 + 1 < n
    · rw [List.getD_eq_getElem _ _ hb, ← List.getD_eq_getElem xs 0 hb]
      exact sorted_getD_mono hs (Nat.le_succ i2) hb
    · have hdef : xs.getD (i2 + 1) (xs.getD i2 0) = xs.getD i2 0 :=
        List.getD_eq_default _ _ (by omega)
      rw [hdef]
  rcases eq_or_lt_of_le hi12 with heq | hlt
  · rw [← heq]
    have hγ12 : h1 - (i1 : ℚ) ≤ h2 - (i1 : ℚ) := by linarith
    nlinarith [hx01, hγ12, hγ1nn]
  · have hv1 : xs.getD i1 0 + (h1 - (i1 : ℚ)) * (xs.getD (i1 + 1) (xs.getD i1 0) - xs.getD i1 0)
        ≤ xs.getD (i1 + 1) (xs.getD i1 0) := by
      nlinarith [hx01, hγ1lt, hγ1nn]
    have hb1 : i1 + 1 < n := by omega
    have hmid : xs.getD (i1 + 1) (xs.getD i1 0) ≤ xs.getD i2 0 := by
      rw [List.getD_eq_getElem _ _ hb1, ← List.getD_eq_getElem xs 0 hb1]
      exact sorted_getD_mono hs (by omega) hi2n
    have hv2 : xs.getD i2 0 ≤
        xs.getD i2 0 + (h2 - (i2 : ℚ)) * (xs.getD (i2 + 1) (xs.getD i2 0) - xs.getD i2 0) := by
      nlinarith [hx02, hγ2nn]
    linarith

/-- C8: when the 5th and 95th percentiles of a series differ, robust
scaling sends every value at or below the 5th percentile to 0, every
value at or above the 95th percentile to 100, and is strictly
increasing on values strictly inside the band. -/
theorem C8_robust_percentile_band (s : Series) (ql qh : ℚ)
    (hql : squantile s (1/20) = some ql) (hqh : squantile s (19/20) = some qh)
    (hne : ql ≠ qh) :
    (∀ i x, s.getD i none = some x → x ≤ ql →
       (scaleRobust s (1/20) (19/20)).getD i none = some 0) ∧
    (∀ i x, s.getD i none = some x → qh ≤ x →
       (scaleRobust s (1/20) (19/20)).getD i none = some 100) ∧
    (∀ i j x y, s.getD i none = some x → s.getD j none = some y →
       ql < x → x < y → y < qh →
       ∃ a b, (scaleRobust s (1/20) (19/20)).getD i none = some a ∧
              (scaleRobust s (1/20) (19/20)).getD j none = some b ∧ a < b) := by
  have hdne : dropNone s ≠ [] := by
    intro h
    rw [squantile, h] at hql
    simp [quantileSorted] at hql
  have hsne : List.insertionSort (· ≤ ·) (dropNone s) ≠ [] := by
    intro h
    apply hdne
    have := (List.perm_insertionSort (· ≤ ·) (dropNone s)).length_eq
    rw [h] at this
    exact List.eq_nil_of_length_eq_zero this.symm
  have hsorted := List.sorted_insertionSort (· ≤ ·) (dropNone s)
  obtain ⟨a, b, ha, hb, hab⟩ :=
    quantileSorted_mono hsne hsorted (1/20) (19/20)
      (by norm_num) (by norm_num) (by norm_num)
  rw [squantile, ha] at hql
  rw [squantile, hb] at hqh
  have ha2 : a = ql := Option.some.inj hql
  have hb2 : b = qh := Option.some.inj hqh
  rw [ha2] at ha hab
  rw [hb2] at hb hab
  have hlt : ql < qh := lt_of_le_of_ne hab hne
  have hpos : 0 < qh - ql := sub_pos.2 hlt
  have hemp : (dropNone s).isEmpty = false := by
    rw [List.isEmpty_eq_false]
    exact hdne
  have hsr : scaleRobust s (1/20) (19/20) =
      s.map (Option.map (fun x => (clipQ ql qh x - ql) / (qh - ql) * 100)) := by
    rw [scaleRobust, hemp]
    simp only [Bool.false_eq_true, if_false, squantile, ha, hb]
    rw [if_neg (Ne.symm hne)]
  refine ⟨?_, ?_, ?_⟩
  · intro i x hx hxl
    rw [hsr, getD_map_optionMap, hx]
    have h1 : clipQ ql qh x = ql := by
      rw [clipQ, max_eq_right hxl, min_eq_left (le_of_lt hlt)]
    simp [h1]
  · intro i x hx hxh
    rw [hsr, getD_map_optionMap, hx]
    have h1 : clipQ ql qh x = qh := by
      rw [clipQ, max_eq_left (le_trans (le_of_lt hlt) hxh), min_eq_right hxh]
    have h2 : Option.map (fun v => (clipQ ql qh v - ql) / (qh - ql) * 100) (some x) =
        some ((clipQ ql qh x - ql) / (qh - ql) * 100) := rfl
    rw [h2, h1, div_self (ne_of_gt hpos)]
    norm_num
  · intro i j x y hx hy hqlx hxy hyqh
    rw [hsr, getD_map_optionMap, getD_map_optionMap, hx, hy]
    have hcx : clipQ ql qh x = x := by
      rw [clipQ, max_eq_left (le_of_lt hqlx), min_eq_left (le_of_lt (lt_trans hxy hyqh))]
    have hcy : clipQ ql qh y = y := by
      rw [clipQ, max_eq_left (le_of_lt (lt_trans hqlx hxy)), min_eq_left (le_of_lt hyqh)]
    refine ⟨_, _, rfl, rfl, ?_⟩
    simp only [hcx, hcy]
    have := div_lt_div_of_pos_right (by linarith : x - ql < y - ql) hpos
    nlinarith

theorem C8_robust_percentile_band_witness :
    ((scaleRobust [some 1, some 2, some 3, some 4, some 5] (1/20) (19/20)).getD 0 none =
       some 0) ∧
    ((scaleRobust [some 1, some 2, some 3, some 4, some 5] (1/20) (19/20)).getD 4 none =
       some 100) :=
  ⟨(C8_robust_percentile_band [some 1, some 2, some 3, some 4, some 5] (6/5) (24/5)
      (by with_unfolding_all rfl) (by with_unfolding_all rfl) (by norm_num)).1 0 1 rfl
      (by norm_num),
   (C8_robust_percentile_band [some 1, some 2, some 3, some 4, some 5] (6/5) (24/5)
      (by with_unfolding_all rfl) (by with_unfolding_all rfl) (by norm_num)).2.1 4 5 rfl
      (by norm_num)⟩

/-! ## Range lemmas: every produced score is missing or in [0, 100] -/

theorem valInRange_none : ValInRange none := Or.inl rfl

theorem valInRange_50 : ValInRange (some 50) :=
  Or.inr ⟨50, rfl, by norm_num, by norm_num⟩

theorem scaleFull_inRange (s : Series) : ∀ v ∈ scaleFull s, ValInRange v := by
  intro v hv
  rw [scaleFull] at hv
  split at hv
  next mn mx hmn hmx =>
    split at hv
    · obtain ⟨w, hw, rfl⟩ := List.mem_map.1 hv
      exact valInRange_50
    next hne =>
      obtain ⟨w, hw, rfl⟩ := List.mem_map.1 hv
      rcases w with _ | x
      · exact valInRange_none
      · have hxmem : x ∈ dropNone s := mem_dropNone.2 hw
        have h1 : mn ≤ x := listMin_le hmn hxmem
        have h2 : x ≤ mx := le_listMax hmx hxmem
        have hlt : mn < mx := lt_of_le_of_ne (h1.trans h2) (fun h => hne h.symm)
        have hpos : 0 < mx - mn := by linarith
        refine Or.inr ⟨(x - mn) / (mx - mn) * 100, rfl, ?_, ?_⟩
        · have := div_nonneg (by linarith : (0:ℚ) ≤ x - mn) (le_of_lt hpos)
          linarith
        · have := (div_le_one hpos).2 (by linarith : x - mn ≤ mx - mn)
          linarith
  next =>
    obtain ⟨w, hw, rfl⟩ := List.mem_map.1 hv
    exact valInRange_none

theorem scaleRobust_inRange (s : Series) (lo hi : ℚ) :
    ∀ v ∈ scaleRobust s lo hi, ValInRange v := by
  intro v hv
  rw [scaleRobust] at hv
  split at hv
  · obtain ⟨w, hw, rfl⟩ := List.mem_map.1 hv
    exact valInRange_none
  · split at hv
    next ql qh hql hqh =>
      split at hv
      · obtain ⟨w, hw, rfl⟩ := List.mem_map.1 hv
        exact valInRange_50
      next hne =>
        obtain ⟨w, hw, rfl⟩ := List.mem_map.1 hv
        rcases w with _ | x
        · exact valInRange_none
        · by_cases hle : ql ≤ qh
          · have hlt : ql < qh := lt_of_le_of_ne hle (fun h => hne h.symm)
            have hpos : 0 < qh - ql := by linarith
            have hc1 : ql ≤ clipQ ql qh x :=
              le_min (le_max_right x ql) hle
            have hc2 : clipQ ql qh x ≤ qh := min_le_right _ _
            refine Or.inr ⟨(clipQ ql qh x - ql) / (qh - ql) * 100, rfl, ?_, ?_⟩
            · have := div_nonneg (by linarith : (0:ℚ) ≤ clipQ ql qh x - ql) (le_of_lt hpos)
              linarith
            · have := (div_le_one hpos).2 (by linarith : clipQ ql qh x - ql ≤ qh - ql)
              linarith
          · push_neg at hle
            have hcq : clipQ ql qh x = qh := by
              rw [clipQ]
              exact min_eq_right (le_trans (le_of_lt hle) (le_max_right x ql))
            refine Or.inr ⟨(clipQ ql qh x - ql) / (qh - ql) * 100, rfl, ?_, ?_⟩
            · rw [hcq, div_self (by intro h; exact hne (by linarith))]
              norm_num
            · rw [hcq, div_self (by intro h; exact hne (by linarith))]
              norm_num
    next =>
      obtain ⟨w, hw, rfl⟩ := List.mem_map.1 hv
      exact valInRange_none

theorem applyScaling_inRange (s : Series) (mode : String) (lo hi : ℚ) :
    ∀ v ∈ applyScaling s mode lo hi, ValInRange v := by
  intro v hv
  simp only [applyScaling] at hv
  by_cases h : (if mode = "" then "full" else mode).toLower = "robust"
  · rw [if_pos h] at hv
    exact scaleRobust_inRange s lo hi v hv
  · rw [if_neg h] at hv
    exact scaleFull_inRange s v hv

theorem allNone_inRange (df : DFrame) : ∀ v ∈ allNone df, ValInRange v := by
  intro v hv
  obtain ⟨w, hw, rfl⟩ := List.mem_map.1 hv
  exact valInRange_none

theorem fedScoreOfDF_inRange (df : DFrame) (mode : String) (lo hi : ℚ) :
    ∀ v ∈ fedScoreOfDF df mode lo hi, ValInRange v := by
  intro v hv
  simp only [fedScoreOfDF] at hv
  split at hv
  · exact allNone_inRange df v hv
  · exact applyScaling_inRange _ mode lo hi v hv

theorem curveScoreOfDF_inRange (df : DFrame) (mode : String) (lo hi : ℚ) :
    ∀ v ∈ curveScoreOfDF df mode lo hi, ValInRange v := by
  intro v hv
  simp only [curveScoreOfDF] at hv
  split at hv
  · exact allNone_inRange df v hv
  · exact applyScaling_inRange _ mode lo hi v hv

theorem creditScoreOfDF_inRange (df : DFrame) (mode : String) (lo hi : ℚ) :
    ∀ v ∈ creditScoreOfDF df mode lo hi, ValInRange v := by
  intro v hv
  simp only [creditScoreOfDF] at hv
  split at hv
  · exact allNone_inRange df v hv
  · exact applyScaling_inRange _ mode lo hi v hv

theorem fxScoreOfDF_inRange (df : DFrame) (mode : String) (lo hi : ℚ) :
    ∀ v ∈ fxScoreOfDF df mode lo hi, ValInRange v := by
  intro v hv
  simp only [fxScoreOfDF] at hv
  split at hv
  · exact allNone_inRange df v hv
  · split at hv
    · exact allNone_inRange df v hv
    · exact applyScaling_inRange _ mode lo hi v hv

theorem fundingScoreOfDF_inRange (df : DFrame) (mode : String) (lo hi : ℚ) :
    ∀ v ∈ fundingScoreOfDF df mode lo hi, ValInRange v := by
  intro v hv
  simp only [fundingScoreOfDF] at hv
  split at hv
  · exact allNone_inRange df v hv
  · exact applyScaling_inRange _ mode lo hi v hv

theorem volScoreOfDF_inRange (df : DFrame) (mode : String) (lo hi : ℚ) :
    ∀ v ∈ volScoreOfDF df mode lo hi, ValInRange v := by
  intro v hv
  simp only [volScoreOfDF] at hv
  split at hv
  · exact allNone_inRange df v hv
  · split at hv
    · exact allNone_inRange df v hv
    · exact applyScaling_inRange _ mode lo hi v hv

theorem growthScoreOfDF_inRange (df : DFrame) (mode : String) (lo hi : ℚ) :
    ∀ v ∈ growthScoreOfDF df mode lo hi, ValInRange v := by
  intro v hv
  simp only [growthScoreOfDF] at hv
  split at hv
  · exact allNone_inRange df v hv
  · split at hv
    · exact allNone_inRange df v hv
    · exact applyScaling_inRange _ mode lo hi v hv

/-! ## The component entry points: success shape and error propagation -/

theorem loadProcessedCSV_none (name : String) :
    loadProcessedCSV none name =
      .error (name ++ " not found. Run the pipeline for " ++ name ++ " first.") := rfl

theorem computeFed_ok {st : DataStore} {mode : String} {lo hi : ℚ} {p : List ℤ × Series}
    (h : computeFedLiquidityScore st mode lo hi = .ok p) :
    ∃ csv df, st.fedLiquidity = some csv ∧
      loadProcessedCSV (some csv) "fed_liquidity.csv" = .ok df ∧
      p = (df.idx, fedScoreOfDF df mode lo hi) := by
  rw [computeFedLiquidityScore] at h
  obtain ⟨df, hdf, hp⟩ := (except_bind_ok _ _ _).1 h
  cases hst : st.fedLiquidity with
  | none =>
      rw [hst, loadProcessedCSV_none] at hdf
      cases hdf
  | some csv =>
      rw [hst] at hdf
      refine ⟨csv, df, rfl, hdf, ?_⟩
      simpa [pure, Except.pure] using hp.symm

theorem computeCurve_ok {st : DataStore} {mode : String} {lo hi : ℚ} {p : List ℤ × Series}
    (h : computeYieldCurveScore st mode lo hi = .ok p) :
    ∃ csv df, st.yieldCurve = some csv ∧
      loadProcessedCSV (some csv) "yield_curve.csv" = .ok df ∧
      p = (df.idx, curveScoreOfDF df mode lo hi) := by
  rw [computeYieldCurveScore] at h
  obtain ⟨df, hdf, hp⟩ := (except_bind_ok _ _ _).1 h
  cases hst : st.yieldCurve with
  | none =>
      rw [hst, loadProcessedCSV_none] at hdf
      cases hdf
  | some csv =>
      rw [hst] at hdf
      refine ⟨csv, df, rfl, hdf, ?_⟩
      simpa [pure, Except.pure] using hp.symm

theorem computeCredit_ok {st : DataStore} {mode : String} {lo hi : ℚ} {p : List ℤ × Series}
    (h : computeCreditScore st mode lo hi = .ok p) :
    ∃ csv df, st.creditSpreads = some csv ∧
      loadProcessedCSV (some csv) "credit_spreads.csv" = .ok df ∧
      p = (df.idx, creditScoreOfDF df mode lo hi) := by
  rw [computeCreditScore] at h
  obtain ⟨df, hdf, hp⟩ := (except_bind_ok _ _ _).1 h
  cases hst : st.creditSpreads with
  | none =>
      rw [hst, loadProcessedCSV_none] at hdf
      cases hdf
  | some csv =>
      rw [hst] at hdf
      refine ⟨csv, df, rfl, hdf, ?_⟩
      simpa [pure, Except.pure] using hp.symm

theorem computeFx_ok {st : DataStore} {mode : String} {lo hi : ℚ} {p : List ℤ × Series}
    (h : computeFxScore st mode lo hi = .ok p) :
    ∃ csv df, st.fxLiquidity = some csv ∧
      loadProcessedCSV (some csv) "fx_liquidity.csv" = .ok df ∧
      p = (df.idx, fxScoreOfDF df mode lo hi) := by
  rw [computeFxScore] at h
  obtain ⟨df, hdf, hp⟩ := (except_bind_ok _ _ _).1 h
  cases hst : st.fxLiquidity with
  | none =>
      rw [hst, loadProcessedCSV_none] at hdf
      cases hdf
  | some csv =>
      rw [hst] at hdf
      refine ⟨csv, df, rfl, hdf, ?_⟩
      simpa [pure, Except.pure] using hp.symm

theorem computeFunding_ok {st : DataStore} {mode : String} {lo hi : ℚ} {p : List ℤ × Series}
    (h : computeFundingScore st mode lo hi = .ok p) :
    ∃ csv df, st.fundingStress = some csv ∧
      loadProcessedCSV (some csv) "funding_stress.csv" = .ok df ∧
      p = (df.idx, fundingScoreOfDF df mode lo hi) := by
  rw [computeFundingScore] at h
  obtain ⟨df, hdf, hp⟩ := (except_bind_ok _ _ _).1 h
  cases hst : st.fundingStress with
  | none =>
      rw [hst, loadProcessedCSV_none] at hdf
      cases hdf
  | some csv =>
      rw [hst] at hdf
      refine ⟨csv, df, rfl, hdf, ?_⟩
      simpa [pure, Except.pure] using hp.symm

theorem computeVol_ok {st : DataStore} {mode : String} {lo hi : ℚ} {p : List ℤ × Series}
    (h : computeVolatilityScore st mode lo hi = .ok p) :
    ∃ csv df, st.volatilityRegimes = some csv ∧
      loadProcessedCSV (some csv) "volatility_regimes.csv" = .ok df ∧
      p = (df.idx, volScoreOfDF df mode lo hi) := by
  rw [computeVolatilityScore] at h
  obtain ⟨df, hdf, hp⟩ := (except_bind_ok _ _ _).1 h
  cases hst : st.volatilityRegimes with
  | none =>
      rw [hst, loadProcessedCSV_none] at hdf
      cases hdf
  | some csv =>
      rw [hst] at hdf
      refine ⟨csv, df, rfl, hdf, ?_⟩
      simpa [pure, Except.pure] using hp.symm

theorem computeGrowth_ok {st : DataStore} {mode : String} {lo hi : ℚ} {p : List ℤ × Series}
    (h : computeGrowthLeadingScore st mode lo hi = .ok p) :
    ∃ csv df, st.growthLeading = some csv ∧
      loadProcessedCSV (some csv) "growth_leading.csv" = .ok df ∧
      p = (df.idx, growthScoreOfDF df mode lo hi) := by
  rw [computeGrowthLeadingScore] at h
  obtain ⟨df, hdf, hp⟩ := (except_bind_ok _ _ _).1 h
  cases hst : st.growthLeading with
  | none =>
      rw [hst, loadProcessedCSV_none] at hdf
      cases hdf
  | some csv =>
      rw [hst] at hdf
      refine ⟨csv, df, rfl, hdf, ?_⟩
      simpa [pure, Except.pure] using hp.symm

/-- Inversion of the aggregation pipeline: a successful
`componentTable` comes from seven successful component computations
followed by seven successful reindexes onto the union index, and its
columns are exactly the reindexed, forward-filled component scores. -/
theorem componentTable_ok {st : DataStore} {mode : String} {lo hi : ℚ}
    {idx : List ℤ} {cols : List Series}
    (h : componentTable st mode lo hi = .ok (idx, cols)) :
    ∃ fed curve credit fx funding vol growth r1 r2 r3 r4 r5 r6 r7,
      computeFedLiquidityScore st mode lo hi = .ok fed ∧
      computeYieldCurveScore st mode lo hi = .ok curve ∧
      computeCreditScore st mode lo hi = .ok credit ∧
      computeFxScore st mode lo hi = .ok fx ∧
      computeFundingScore st mode lo hi = .ok funding ∧
      computeVolatilityScore st mode lo hi = .ok vol ∧
      computeGrowthLeadingScore st mode lo hi = .ok growth ∧
      idx = indexUnion (indexUnion (indexUnion (indexUnion (indexUnion
              (indexUnion fed.1 curve.1) credit.1) fx.1) funding.1) vol.1) growth.1 ∧
      reindexS fed.1 fed.2 idx = .ok r1 ∧
      reindexS curve.1 curve.2 idx = .ok r2 ∧
      reindexS credit.1 credit.2 idx = .ok r3 ∧
      reindexS fx.1 fx.2 idx = .ok r4 ∧
      reindexS funding.1 funding.2 idx = .ok r5 ∧
      reindexS vol.1 vol.2 idx = .ok r6 ∧
      reindexS growth.1 growth.2 idx = .ok r7 ∧
      cols = [ffill r1, ffill r2, ffill r3, ffill r4, ffill r5, ffill r6, ffill r7] := by
  rw [componentTable] at h
  obtain ⟨fed, h1, h⟩ := (except_bind_ok _ _ _).1 h
  obtain ⟨curve, h2, h⟩ := (except_bind_ok _ _ _).1 h
  obtain ⟨credit, h3, h⟩ := (except_bind_ok _ _ _).1 h
  obtain ⟨fx, h4, h⟩ := (except_bind_ok _ _ _).1 h
  obtain ⟨funding, h5, h⟩ := (except_bind_ok _ _ _).1 h
  obtain ⟨vol, h6, h⟩ := (except_bind_ok _ _ _).1 h
  obtain ⟨growth, h7, h⟩ := (except_bind_ok _ _ _).1 h
  obtain ⟨r1, g1, h⟩ := (except_bind_ok _ _ _).1 h
  obtain ⟨r2, g2, h⟩ := (except_bind_ok _ _ _).1 h
  obtain ⟨r3, g3, h⟩ := (except_bind_ok _ _ _).1 h
  obtain ⟨r4, g4, h⟩ := (except_bind_ok _ _ _).1 h
  obtain ⟨r5, g5, h⟩ := (except_bind_ok _ _ _).1 h
  obtain ⟨r6, g6, h⟩ := (except_bind_ok _ _ _).1 h
  obtain ⟨r7, g7, h⟩ := (except_bind_ok _ _ _).1 h
  simp only [pure, Except.pure, Except.ok.injEq, Prod.mk.injEq] at h
  obtain ⟨hidx, hcols⟩ := h
  rw [hidx] at g1 g2 g3 g4 g5 g6 g7
  exact ⟨fed, curve, credit, fx, funding, vol, growth, r1, r2, r3, r4, r5, r6, r7,
    h1, h2, h3, h4, h5, h6, h7, hidx.symm, g1, g2, g3, g4, g5, g6, g7, hcols.symm⟩

/-! ## Reindex, forward-fill and the per-date weighted mean -/

theorem reindexS_ok_mem {idx : List ℤ} {vals : Series} {target : List ℤ} {r : Series}
    (h : reindexS idx vals target = .ok r) : ∀ v ∈ r, v = none ∨ v ∈ vals := by
  rw [reindexS] at h
  by_cases ht : target = idx
  · rw [if_pos ht] at h
    have hr : vals = r := (Except.ok.injEq _ _).mp h
    intro v hv
    rw [← hr] at hv
    exact Or.inr hv
  · rw [if_neg ht] at h
    by_cases hn : idx.Nodup
    · rw [if_pos hn] at h
      have hr := (Except.ok.injEq _ _).mp h
      intro v hv
      rw [← hr] at hv
      obtain ⟨d, hd, rfl⟩ := List.mem_map.1 hv
      cases hfind : (idx.zip vals).find? (fun p => p.1 == d) with
      | none => exact Or.inl rfl
      | some pr =>
          exact Or.inr (List.of_mem_zip (List.mem_of_find?_eq_some hfind)).2
    · rw [if_neg hn] at h
      cases h

theorem reindexS_no_error {idx : List ℤ} {vals : Series} {target : List ℤ} {e : String}
    (hn : idx.Nodup) (h : reindexS idx vals target = .error e) : False := by
  rw [reindexS] at h
  by_cases ht : target = idx
  · rw [if_pos ht] at h
    cases h
  · rw [if_neg ht, if_pos hn] at h
    cases h

theorem ffillAux_mem :
    ∀ (s : Series) (last v : Val), v ∈ ffillAux last s →
      v = last ∨ ∃ x, v = some x ∧ some x ∈ s := by
  intro s
  induction s with
  | nil => intro last v hv; cases hv
  | cons w rest ih =>
      intro last v hv
      cases w with
      | some x =>
          rw [ffillAux] at hv
          rcases List.mem_cons.1 hv with rfl | hv'
          · exact Or.inr ⟨x, rfl, by simp⟩
          · rcases ih (some x) v hv' with rfl | ⟨y, rfl, hy⟩
            · exact Or.inr ⟨x, rfl, by simp⟩
            · exact Or.inr ⟨y, rfl, by simp [hy]⟩
      | none =>
          rw [ffillAux] at hv
          rcases List.mem_cons.1 hv with rfl | hv'
          · exact Or.inl rfl
          · rcases ih last v hv' with rfl | ⟨y, rfl, hy⟩
            · exact Or.inl rfl
            · exact Or.inr ⟨y, rfl, by simp [hy]⟩

theorem ffill_inRange {s : Series} (hs : ∀ v ∈ s, ValInRange v) :
    ∀ v ∈ ffill s, ValInRange v := by
  intro v hv
  rcases ffillAux_mem s none v hv with rfl | ⟨x, rfl, hx⟩
  · exact valInRange_none
  · exact hs (some x) hx

/-- Bounds for one row of the aggregation loop: with positive weights
and component values inside [0, 100], the renormalized weighted sum is
itself missing or inside [0, 100]. -/
theorem macroRow_inRange {pairs : List (ℚ × Val)}
    (hw : ∀ p ∈ pairs, 0 < p.1 ∧ ∀ x : ℚ, p.2 = some x → 0 ≤ x ∧ x ≤ 100) :
    ValInRange (macroRow pairs) := by
  rw [macroRow]
  set valid := pairs.filterMap (fun p => p.2.map (fun x => (p.1, x))) with hvalid
  have hvmem : ∀ q ∈ valid, 0 < q.1 ∧ 0 ≤ q.2 ∧ q.2 ≤ 100 := by
    intro q hq
    rw [hvalid] at hq
    obtain ⟨p, hp, hpq⟩ := List.mem_filterMap.1 hq
    cases hv2 : p.2 with
    | none => rw [hv2] at hpq; cases hpq
    | some x =>
        rw [hv2] at hpq
        have hq2 : (p.1, x) = q := Option.some.inj hpq
        obtain ⟨h1, h2⟩ := hw p hp
        obtain ⟨h3, h4⟩ := h2 x hv2
        rw [← hq2]
        exact ⟨h1, h3, h4⟩
  by_cases hemp : valid.isEmpty
  · rw [if_pos hemp]
    exact valInRange_none
  · rw [if_neg hemp]
    have hne : valid ≠ [] := by
      intro h
      rw [h] at hemp
      exact hemp rfl
    have hwpos : 0 < (valid.map Prod.fst).sum := by
      apply List.sum_pos
      · intro x hx
        obtain ⟨q, hq, rfl⟩ := List.mem_map.1 hx
        exact (hvmem q hq).1
      · intro h
        exact hne (List.map_eq_nil_iff.1 h)
    have hnum0 : 0 ≤ (valid.map (fun p => p.1 * p.2)).sum := by
      apply List.sum_nonneg
      intro x hx
      obtain ⟨q, hq, rfl⟩ := List.mem_map.1 hx
      exact mul_nonneg (le_of_lt (hvmem q hq).1) (hvmem q hq).2.1
    have hnum100 : (valid.map (fun p => p.1 * p.2)).sum ≤ 100 * (valid.map Prod.fst).sum := by
      have h1 : (valid.map (fun p => p.1 * p.2)).sum ≤ (valid.map (fun p => p.1 * 100)).sum :=
        List.sum_le_sum (fun q hq =>
          mul_le_mul_of_nonneg_left (hvmem q hq).2.2 (le_of_lt (hvmem q hq).1))
      have h2 : (valid.map (fun p => p.1 * 100)).sum = 100 * (valid.map Prod.fst).sum := by
        induction valid with
        | nil => simp
        | cons q r ihr =>
            simp only [List.map_cons, List.sum_cons, ihr]
            ring
      linarith
    refine Or.inr ⟨_, rfl, ?_, ?_⟩
    · exact div_nonneg hnum0 (le_of_lt hwpos)
    · rw [div_le_iff₀ hwpos]
      linarith

theorem getD_none_or_mem (l : Series) (i : ℕ) :
    l.getD i none = none ∨ l.getD i none ∈ l := by
  by_cases hi : i < l.length
  · rw [List.getD_eq_getElem _ _ hi]
    exact Or.inr (List.getElem_mem hi)
  · rw [List.getD_eq_default _ _ (by omega)]
    exact Or.inl rfl

theorem weightsList_pos : ∀ w ∈ weightsList, 0 < w := by
  intro w hw
  rw [weightsList] at hw
  simp only [List.mem_cons, List.not_mem_nil, or_false] at hw
  rcases hw with rfl | rfl | rfl | rfl | rfl | rfl | rfl <;> norm_num

/-- The `macro_score` column stays missing-or-in-band whenever every
component column does. -/
theorem macroSeries_inRange {cols : List Series}
    (hcols : ∀ c ∈ cols, ∀ v ∈ c, ValInRange v) (n : ℕ) :
    ∀ v ∈ macroSeries n cols, ValInRange v := by
  intro v hv
  obtain ⟨i, hi, rfl⟩ := List.mem_map.1 hv
  apply macroRow_inRange
  intro p hp
  have h1 := (List.of_mem_zip hp).1
  have h2 := (List.of_mem_zip hp).2
  constructor
  · exact weightsList_pos p.1 h1
  · intro x hx
    obtain ⟨c, hc, hcd⟩ := List.mem_map.1 h2
    rcases getD_none_or_mem c i with hnone | hmem
    · rw [hcd, hx] at hnone
      cases hnone
    · have := hcols c hc _ hmem
      rw [hcd, hx] at this
      rcases this with h | ⟨y, hy, hy0, hy100⟩
      · cases h
      · obtain rfl : x = y := Option.some.inj hy
        exact ⟨hy0, hy100⟩

/-- The loader preserves distinctness of dates: sorting is a
permutation of the rows. -/
theorem loadProcessedCSV_idx_nodup {csv : RawCSV} {name : String} {df : DFrame}
    (h : loadProcessedCSV (some csv) name = .ok df) (hn : csvDatesNodup csv) :
    df.idx.Nodup := by
  rw [loadProcessedCSV_some_idx h]
  have hperm : ((List.insertionSort rowLe csv.rows).map Prod.fst).Perm
      (csv.rows.map Prod.fst) :=
    (List.perm_insertionSort rowLe csv.rows).map Prod.fst
  exact hperm.nodup_iff.2 hn

/-- C2 counterexample: every one of the seven CSVs exists and loads
(the loader keeps duplicate dates, see C6), yet `compute_macro_risk_score`
returns no table at all: the fed-liquidity index carries the date 5
twice, so reindexing it onto the union index `[3, 5, 5]` raises
pandas' duplicate-labels `ValueError` at the first column assignment. -/
theorem C2_duplicate_dates_counterexample :
    computeMacroRiskScore
      ⟨some ⟨["Fed_Balance_Sheet"], [(5, [some 1]), (5, [some 2])]⟩,
       some ⟨["X"], [(3, [some 1])]⟩, some ⟨["X"], [(3, [some 1])]⟩,
       some ⟨["X"], [(3, [some 1])]⟩, some ⟨["X"], [(3, [some 1])]⟩,
       some ⟨["X"], [(3, [some 1])]⟩, some ⟨["X"], [(3, [some 1])]⟩⟩
      "full" (1/20) (19/20) =
      .error "cannot reindex on an axis with duplicate labels" := by
  with_unfolding_all rfl

/-- C2 (amended): whenever all seven backing CSVs exist *and each one's
dates are pairwise distinct* (the spec's dataset invariant — without
it the reindex onto the union index raises), `compute_macro_risk_score`
returns a date-indexed table whose columns are exactly the seven
component-score columns plus `macro_score`, and every value in those
eight columns is either missing or lies in the closed interval
[0, 100]. -/
theorem C2_output_columns_and_range (st : DataStore) (mode : String) (lo hi : ℚ)
    (h1 : ∃ csv, st.fedLiquidity = some csv ∧ csvDatesNodup csv)
    (h2 : ∃ csv, st.yieldCurve = some csv ∧ csvDatesNodup csv)
    (h3 : ∃ csv, st.creditSpreads = some csv ∧ csvDatesNodup csv)
    (h4 : ∃ csv, st.fxLiquidity = some csv ∧ csvDatesNodup csv)
    (h5 : ∃ csv, st.fundingStress = some csv ∧ csvDatesNodup csv)
    (h6 : ∃ csv, st.volatilityRegimes = some csv ∧ csvDatesNodup csv)
    (h7 : ∃ csv, st.growthLeading = some csv ∧ csvDatesNodup csv) :
    ∃ df : DFrame, computeMacroRiskScore st mode lo hi = .ok df ∧
      df.cols.map Prod.fst = scoreNames ++ ["macro_score"] ∧
      ∀ c ∈ df.cols, ∀ v ∈ c.2, ValInRange v := by
  obtain ⟨c1, hc1, hn1⟩ := h1
  obtain ⟨c2, hc2, hn2⟩ := h2
  obtain ⟨c3, hc3, hn3⟩ := h3
  obtain ⟨c4, hc4, hn4⟩ := h4
  obtain ⟨c5, hc5, hn5⟩ := h5
  obtain ⟨c6, hc6, hn6⟩ := h6
  obtain ⟨c7, hc7, hn7⟩ := h7
  obtain ⟨p1, hp1⟩ : ∃ p, computeFedLiquidityScore st mode lo hi = .ok p :=
    ⟨_, by rw [computeFedLiquidityScore, hc1]; rfl⟩
  obtain ⟨p2, hp2⟩ : ∃ p, computeYieldCurveScore st mode lo hi = .ok p :=
    ⟨_, by rw [computeYieldCurveScore, hc2]; rfl⟩
  obtain ⟨p3, hp3⟩ : ∃ p, computeCreditScore st mode lo hi = .ok p :=
    ⟨_, by rw [computeCreditScore, hc3]; rfl⟩
  obtain ⟨p4, hp4⟩ : ∃ p, computeFxScore st mode lo hi = .ok p :=
    ⟨_, by rw [computeFxScore, hc4]; rfl⟩
  obtain ⟨p5, hp5⟩ : ∃ p, computeFundingScore st mode lo hi = .ok p :=
    ⟨_, by rw [computeFundingScore, hc5]; rfl⟩
  obtain ⟨p6, hp6⟩ : ∃ p, computeVolatilityScore st mode lo hi = .ok p :=
    ⟨_, by rw [computeVolatilityScore, hc6]; rfl⟩
  obtain ⟨p7, hp7⟩ : ∃ p, computeGrowthLeadingScore st mode lo hi = .ok p :=
    ⟨_, by rw [computeGrowthLeadingScore, hc7]; rfl⟩
  have hnod1 : p1.1.Nodup := by
    obtain ⟨csv, dfx, hsome, hload, hval⟩ := computeFed_ok hp1
    obtain rfl : csv = c1 := Option.some.inj (hsome.symm.trans hc1)
    rw [hval]
    exact loadProcessedCSV_idx_nodup hload hn1
  have hnod2 : p2.1.Nodup := by
    obtain ⟨csv, dfx, hsome, hload, hval⟩ := computeCurve_ok hp2
    obtain rfl : csv = c2 := Option.some.inj (hsome.symm.trans hc2)
    rw [hval]
    exact loadProcessedCSV_idx_nodup hload hn2
  have hnod3 : p3.1.Nodup := by
    obtain ⟨csv, dfx, hsome, hload, hval⟩ := computeCredit_ok hp3
    obtain rfl : csv = c3 := Option.some.inj (hsome.symm.trans hc3)
    rw [hval]
    exact loadProcessedCSV_idx_nodup hload hn3
  have hnod4 : p4.1.Nodup := by
    obtain ⟨csv, dfx, hsome, hload, hval⟩ := computeFx_ok hp4
    obtain rfl : csv = c4 := Option.some.inj (hsome.symm.trans hc4)
    rw [hval]
    exact loadProcessedCSV_idx_nodup hload hn4
  have hnod5 : p5.1.Nodup := by
    obtain ⟨csv, dfx, hsome, hload, hval⟩ := computeFunding_ok hp5
    obtain rfl : csv = c5 := Option.some.inj (hsome.symm.trans hc5)
    rw [hval]
    exact loadProcessedCSV_idx_nodup hload hn5
  have hnod6 : p6.1.Nodup := by
    obtain ⟨csv, dfx, hsome, hload, hval⟩ := computeVol_ok hp6
    obtain rfl : csv = c6 := Option.some.inj (hsome.symm.trans hc6)
    rw [hval]
    exact loadProcessedCSV_idx_nodup hload hn6
  have hnod7 : p7.1.Nodup := by
    obtain ⟨csv, dfx, hsome, hload, hval⟩ := computeGrowth_ok hp7
    obtain rfl : csv = c7 := Option.some.inj (hsome.symm.trans hc7)
    rw [hval]
    exact loadProcessedCSV_idx_nodup hload hn7
  obtain ⟨t, ht⟩ : ∃ t, componentTable st mode lo hi = .ok t := by
    cases hres : componentTable st mode lo hi with
    | ok t => exact ⟨t, rfl⟩
    | error e =>
        exfalso
        rw [componentTable, hp1, hp2, hp3, hp4, hp5, hp6, hp7] at hres
        simp only [bind, Except.bind] at hres
        split at hres
        · rename_i heq1
          exact reindexS_no_error hnod1 heq1
        · split at hres
          · rename_i heq2
            exact reindexS_no_error hnod2 heq2
          · split at hres
            · rename_i heq3
              exact reindexS_no_error hnod3 heq3
            · split at hres
              · rename_i heq4
                exact reindexS_no_error hnod4 heq4
              · split at hres
                · rename_i heq5
                  exact reindexS_no_error hnod5 heq5
                · split at hres
                  · rename_i heq6
                    exact reindexS_no_error hnod6 heq6
                  · split at hres
                    · rename_i heq7
                      exact reindexS_no_error hnod7 heq7
                    · cases hres
  obtain ⟨df, hdf⟩ : ∃ df, computeMacroRiskScore st mode lo hi = .ok df :=
    ⟨_, by rw [computeMacroRiskScore, ht]; rfl⟩
  have hdf2 : df = DFrame.mk t.1
      (scoreNames.zip t.2 ++ [("macro_score", macroSeries t.1.length t.2)]) := by
    have h := hdf
    rw [computeMacroRiskScore, ht] at h
    simp only [bind, Except.bind, pure, Except.pure, Except.ok.injEq] at h
    exact h.symm
  obtain ⟨fed, curve, credit, fx, funding, vol, growth, r1, r2, r3, r4, r5, r6, r7,
    q1, q2, q3, q4, q5, q6, q7, hidx, g1, g2, g3, g4, g5, g6, g7, hcols⟩ :=
      componentTable_ok ht
  obtain ⟨csv1, df1, hA1, hB1, hval1⟩ := computeFed_ok q1
  obtain ⟨csv2, df2, hA2, hB2, hval2⟩ := computeCurve_ok q2
  obtain ⟨csv3, df3, hA3, hB3, hval3⟩ := computeCredit_ok q3
  obtain ⟨csv4, df4, hA4, hB4, hval4⟩ := computeFx_ok q4
  obtain ⟨csv5, df5, hA5, hB5, hval5⟩ := computeFunding_ok q5
  obtain ⟨csv6, df6, hA6, hB6, hval6⟩ := computeVol_ok q6
  obtain ⟨csv7, df7, hA7, hB7, hval7⟩ := computeGrowth_ok q7
  have hcolsRange : ∀ col ∈ t.2, ∀ w ∈ col, ValInRange w := by
    rw [hcols]
    intro col hcol w hw
    simp only [List.mem_cons, List.not_mem_nil, or_false] at hcol
    rcases hcol with rfl | rfl | rfl | rfl | rfl | rfl | rfl
    · exact ffill_inRange (fun u hu => by
        rcases reindexS_ok_mem g1 u hu with rfl | hm
        · exact valInRange_none
        · rw [hval1] at hm
          exact fedScoreOfDF_inRange df1 mode lo hi u hm) w hw
    · exact ffill_inRange (fun u hu => by
        rcases reindexS_ok_mem g2 u hu with rfl | hm
        · exact valInRange_none
        · rw [hval2] at hm
          exact curveScoreOfDF_inRange df2 mode lo hi u hm) w hw
    · exact ffill_inRange (fun u hu => by
        rcases reindexS_ok_mem g3 u hu with rfl | hm
        · exact valInRange_none
        · rw [hval3] at hm
          exact creditScoreOfDF_inRange df3 mode lo hi u hm) w hw
    · exact ffill_inRange (fun u hu => by
        rcases reindexS_ok_mem g4 u hu with rfl | hm
        · exact valInRange_none
        · rw [hval4] at hm
          exact fxScoreOfDF_inRange df4 mode lo hi u hm) w hw
    · exact ffill_inRange (fun u hu => by
        rcases reindexS_ok_mem g5 u hu with rfl | hm
        · exact valInRange_none
        · rw [hval5] at hm
          exact fundingScoreOfDF_inRange df5 mode lo hi u hm) w hw
    · exact ffill_inRange (fun u hu => by
        rcases reindexS_ok_mem g6 u hu with rfl | hm
        · exact valInRange_none
        · rw [hval6] at hm
          exact volScoreOfDF_inRange df6 mode lo hi u hm) w hw
    · exact ffill_inRange (fun u hu => by
        rcases reindexS_ok_mem g7 u hu with rfl | hm
        · exact valInRange_none
        · rw [hval7] at hm
          exact growthScoreOfDF_inRange df7 mode lo hi u hm) w hw
  refine ⟨df, hdf, ?_, ?_⟩
  · rw [hdf2]
    rw [hcols]
    simp [scoreNames]
  · intro c hc v hv
    rw [hdf2] at hc
    rcases List.mem_append.1 hc with hzip | hmac
    · exact hcolsRange c.2 (List.of_mem_zip hzip).2 v hv
    · rcases List.mem_cons.1 hmac with rfl | hfalse
      · exact macroSeries_inRange hcolsRange t.1.length v hv
      · cases hfalse

theorem C2_output_columns_and_range_witness :
    ∃ df : DFrame,
      computeMacroRiskScore
        ⟨some ⟨["X"], [(1, [some 1])]⟩, some ⟨["X"], [(1, [some 1])]⟩,
         some ⟨["X"], [(1, [some 1])]⟩, some ⟨["X"], [(1, [some 1])]⟩,
         some ⟨["X"], [(1, [some 1])]⟩, some ⟨["X"], [(1, [some 1])]⟩,
         some ⟨["X"], [(1, [some 1])]⟩⟩ "full" (1/20) (19/20) = .ok df ∧
      df.cols.map Prod.fst = scoreNames ++ ["macro_score"] ∧
      ∀ c ∈ df.cols, ∀ v ∈ c.2, ValInRange v :=
  C2_output_columns_and_range
    ⟨some ⟨["X"], [(1, [some 1])]⟩, some ⟨["X"], [(1, [some 1])]⟩,
     some ⟨["X"], [(1, [some 1])]⟩, some ⟨["X"], [(1, [some 1])]⟩,
     some ⟨["X"], [(1, [some 1])]⟩, some ⟨["X"], [(1, [some 1])]⟩,
     some ⟨["X"], [(1, [some 1])]⟩⟩ "full" (1/20) (19/20)
    ⟨_, rfl, by unfold csvDatesNodup; decide⟩ ⟨_, rfl, by unfold csvDatesNodup; decide⟩
    ⟨_, rfl, by unfold csvDatesNodup; decide⟩ ⟨_, rfl, by unfold csvDatesNodup; decide⟩
    ⟨_, rfl, by unfold csvDatesNodup; decide⟩ ⟨_, rfl, by unfold csvDatesNodup; decide⟩
    ⟨_, rfl, by unfold csvDatesNodup; decide⟩

/-! ## C4 and C5: the per-date weighted combination -/

theorem all_none_of_reduceOption_nil {l : List Val} (h : l.reduceOption = []) :
    ∀ v ∈ l, v = none := by
  intro v hv
  cases v with
  | none => rfl
  | some x =>
      have hx : x ∈ dropNone l := mem_dropNone.2 hv
      rw [show dropNone l = l.reduceOption from rfl, h] at hx
      cases hx

theorem valid_nil_of_all_none {rest : List (ℚ × Val)} (h : ∀ p ∈ rest, p.2 = none) :
    rest.filterMap (fun p => p.2.map (fun x => (p.1, x))) = [] := by
  induction rest with
  | nil => rfl
  | cons q r ih =>
      have hq : q.2 = none := h q (by simp)
      rw [List.filterMap_cons, hq]
      exact ih (fun p hp => h p (by simp [hp]))

theorem macroRow_of_none {pairs : List (ℚ × Val)}
    (h : (pairs.map Prod.snd).reduceOption = []) : macroRow pairs = none := by
  rw [macroRow]
  have hval : pairs.filterMap (fun p => p.2.map (fun x => (p.1, x))) = [] := by
    apply valid_nil_of_all_none
    intro p hp
    exact all_none_of_reduceOption_nil h p.2 (List.mem_map.2 ⟨p, hp, rfl⟩)
  rw [hval]
  rfl

theorem macroRow_of_single {pairs : List (ℚ × Val)} {x : ℚ}
    (hw : ∀ p ∈ pairs, 0 < p.1)
    (h : (pairs.map Prod.snd).reduceOption = [x]) : macroRow pairs = some x := by
  induction pairs with
  | nil => simp [List.reduceOption] at h
  | cons q rest ih =>
      cases hq : q.2 with
      | none =>
          have hh : (rest.map Prod.snd).reduceOption = [x] := by
            rw [List.map_cons, hq, List.reduceOption_cons_of_none] at h
            exact h
          have hmr : macroRow (q :: rest) = macroRow rest := by
            rw [macroRow, macroRow, List.filterMap_cons, hq]
            rfl
          rw [hmr]
          exact ih (fun p hp => hw p (by simp [hp])) hh
      | some y =>
          rw [List.map_cons, hq, List.reduceOption_cons_of_some] at h
          injection h with h1 h2
          subst h1
          have hval : (q :: rest).filterMap (fun p => p.2.map (fun x => (p.1, x))) =
              [(q.1, y)] := by
            rw [List.filterMap_cons, hq]
            have hrest0 : rest.filterMap (fun p => p.2.map (fun x => (p.1, x))) = [] :=
              valid_nil_of_all_none (fun p hp =>
                all_none_of_reduceOption_nil h2 p.2 (List.mem_map.2 ⟨p, hp, rfl⟩))
            simp [hrest0]
          rw [macroRow, hval]
          have hq1 : (0 : ℚ) < q.1 := hw q (by simp)
          simp only [List.isEmpty_cons, List.map_cons, List.map_nil, List.sum_cons,
            List.sum_nil, add_zero, Bool.false_eq_true, if_false]
          rw [mul_comm, mul_div_assoc, div_self (ne_of_gt hq1), mul_one]

theorem zip_map_snd : ∀ (ws : List ℚ) (vs : List Val), vs.length ≤ ws.length →
    (ws.zip vs).map Prod.snd = vs := by
  intro ws
  induction ws with
  | nil =>
      intro vs h
      cases vs with
      | nil => rfl
      | cons v r => simp at h
  | cons w wr ih =>
      intro vs h
      cases vs with
      | nil => rfl
      | cons v r =>
          simp only [List.zip_cons_cons, List.map_cons]
          rw [ih r (by simpa using h)]

theorem componentTable_cols_length {st : DataStore} {mode : String} {lo hi : ℚ}
    {idx : List ℤ} {cols : List Series}
    (h : componentTable st mode lo hi = .ok (idx, cols)) : cols.length = 7 := by
  obtain ⟨fed, curve, credit, fx, funding, vol, growth,
    _, _, _, _, _, _, _, _, _, _, _, _, _, _, _,
    _, _, _, _, _, _, _, hcols⟩ := componentTable_ok h
  rw [hcols]
  rfl

theorem macroSeries_getD {cols : List Series} {n i : ℕ} (hi : i < n) :
    (macroSeries n cols).getD i none =
      macroRow (weightsList.zip (cols.map (fun c => c.getD i none))) := by
  rw [macroSeries, List.getD_eq_getElem _ _ (by simpa using hi)]
  simp

/-- C4: on any date of the assembled (reindexed, forward-filled)
component table where exactly one of the seven component scores is
non-missing, the macro score of that date equals that single component
score exactly — its weight renormalizes to 1. -/
theorem C4_single_component_macro (st : DataStore) (mode : String) (lo hi : ℚ)
    (idx : List ℤ) (cols : List Series)
    (h : componentTable st mode lo hi = .ok (idx, cols))
    (i : ℕ) (hin : i < idx.length) (x : ℚ)
    (hrow : (cols.map (fun c => c.getD i none)).reduceOption = [x]) :
    (macroSeries idx.length cols).getD i none = some x := by
  rw [macroSeries_getD hin]
  apply macroRow_of_single
  · intro p hp
    exact weightsList_pos p.1 (List.of_mem_zip hp).1
  · rw [zip_map_snd _ _ (by rw [List.length_map, componentTable_cols_length h]; rfl)]
    exact hrow

/-- C5: on any date of the assembled component table where all seven
component scores are missing (after forward-filling), the macro score
is missing, not a silently defaulted neutral value such as 50. -/
theorem C5_all_missing_macro_missing (st : DataStore) (mode : String) (lo hi : ℚ)
    (idx : List ℤ) (cols : List Series)
    (h : componentTable st mode lo hi = .ok (idx, cols))
    (i : ℕ) (hin : i < idx.length)
    (hrow : (cols.map (fun c => c.getD i none)).reduceOption = []) :
    (macroSeries idx.length cols).getD i none = none ∧
      (macroSeries idx.length cols).getD i none ≠ some 50 := by
  have hval : (macroSeries idx.length cols).getD i none = none := by
    rw [macroSeries_getD hin]
    apply macroRow_of_none
    rw [zip_map_snd _ _ (by rw [List.length_map, componentTable_cols_length h]; rfl)]
    exact hrow
  exact ⟨hval, by rw [hval]; intro hc; cases hc⟩

theorem C4_single_component_macro_witness :
    (macroSeries ([(1 : ℤ), 2]).length
        [[none, none], [some 0, some 100], [none, none], [none, none],
         [none, none], [none, none], [none, none]]).getD 1 none = some 100 :=
  C4_single_component_macro
    ⟨some ⟨["X"], [(1, [some 5])]⟩,
     some ⟨["Spread_2s10s"], [(1, [some 1]), (2, [some 3])]⟩,
     some ⟨["X"], [(1, [some 5])]⟩, some ⟨["X"], [(1, [some 5])]⟩,
     some ⟨["X"], [(1, [some 5])]⟩, some ⟨["X"], [(1, [some 5])]⟩,
     some ⟨["X"], [(1, [some 5])]⟩⟩ "full" (1/20) (19/20)
    [1, 2]
    [[none, none], [some 0, some 100], [none, none], [none, none],
     [none, none], [none, none], [none, none]]
    (by with_unfolding_all rfl) 1 (by norm_num) 100 (by rfl)

theorem C5_all_missing_macro_missing_witness :
    (macroSeries ([(1 : ℤ)]).length
        [[none], [none], [none], [none], [none], [none], [none]]).getD 0 none = none ∧
      (macroSeries ([(1 : ℤ)]).length
        [[none], [none], [none], [none], [none], [none], [none]]).getD 0 none ≠ some 50 :=
  C5_all_missing_macro_missing
    ⟨some ⟨["X"], [(1, [some 5])]⟩, some ⟨["X"], [(1, [some 5])]⟩,
     some ⟨["X"], [(1, [some 5])]⟩, some ⟨["X"], [(1, [some 5])]⟩,
     some ⟨["X"], [(1, [some 5])]⟩, some ⟨["X"], [(1, [some 5])]⟩,
     some ⟨["X"], [(1, [some 5])]⟩⟩ "full" (1/20) (19/20)
    [1] [[none], [none], [none], [none], [none], [none], [none]]
    (by rfl) 0 (by norm_num) (by rfl)

/-! ## C1: a missing backing CSV aborts the whole computation -/

/-- C1 counterexample: with every dataset but `fed_liquidity.csv`
present, `compute_macro_risk_score` does not return a partial table —
it propagates the loader's `FileNotFoundError`, contradicting the claim
that the computation as a whole does not fail. -/
theorem C1_missing_file_counterexample :
    computeMacroRiskScore
      ⟨none,
       some ⟨["Spread_2s10s"], [(1, [some 1]), (2, [some 3])]⟩,
       some ⟨["HY_OAS"], [(1, [some 1])]⟩, some ⟨["DXY"], [(1, [some 1])]⟩,
       some ⟨["EFFR_minus_SOFR"], [(1, [some 1])]⟩,
       some ⟨["VIX_Short"], [(1, [some 1])]⟩,
       some ⟨["ISM_Spread"], [(1, [some 1])]⟩⟩ "full" (1/20) (19/20) =
      .error
        "fed_liquidity.csv not found. Run the pipeline for fed_liquidity.csv first." := rfl

/-- C1 (amended): if the backing CSV of any one of the seven datasets
is missing, `compute_macro_risk_score` raises (returns the
`FileNotFoundError` of `_load_processed_csv`) instead of aggregating
the remaining components; degradation is left to the caller. -/
theorem C1_missing_file_propagates_error (st : DataStore) (mode : String) (lo hi : ℚ)
    (h : st.fedLiquidity = none ∨ st.yieldCurve = none ∨ st.creditSpreads = none ∨
         st.fxLiquidity = none ∨ st.fundingStress = none ∨ st.volatilityRegimes = none ∨
         st.growthLeading = none) :
    ∃ e, computeMacroRiskScore st mode lo hi = .error e := by
  cases hres : computeMacroRiskScore st mode lo hi with
  | error e => exact ⟨e, rfl⟩
  | ok df =>
      exfalso
      rw [computeMacroRiskScore] at hres
      obtain ⟨t, ht, -⟩ := (except_bind_ok _ _ _).1 hres
      obtain ⟨fed, curve, credit, fx, funding, vol, growth,
        _, _, _, _, _, _, _,
        q1, q2, q3, q4, q5, q6, q7, -, -, -, -, -, -, -, -, -⟩ := componentTable_ok ht
      obtain ⟨csvA, dfA, hsA, -, -⟩ := computeFed_ok q1
      obtain ⟨csvB, dfB, hsB, -, -⟩ := computeCurve_ok q2
      obtain ⟨csvC, dfC, hsC, -, -⟩ := computeCredit_ok q3
      obtain ⟨csvD, dfD, hsD, -, -⟩ := computeFx_ok q4
      obtain ⟨csvE, dfE, hsE, -, -⟩ := computeFunding_ok q5
      obtain ⟨csvF, dfF, hsF, -, -⟩ := computeVol_ok q6
      obtain ⟨csvG, dfG, hsG, -, -⟩ := computeGrowth_ok q7
      rcases h with h | h | h | h | h | h | h
      · rw [h] at hsA; cases hsA
      · rw [h] at hsB; cases hsB
      · rw [h] at hsC; cases hsC
      · rw [h] at hsD; cases hsD
      · rw [h] at hsE; cases hsE
      · rw [h] at hsF; cases hsF
      · rw [h] at hsG; cases hsG

theorem C1_missing_file_propagates_error_witness :
    ∃ e, computeMacroRiskScore
      ⟨none, none, none, none, none, none, none⟩ "full" (1/20) (19/20) = .error e :=
  C1_missing_file_propagates_error
    ⟨none, none, none, none, none, none, none⟩ "full" (1/20) (19/20) (Or.inl rfl)

/-! ## C3: how contributors are actually combined -/

/-- C3 counterexample: with `HY_OAS = [0, 2]` and `IG_OAS = [0, 4]`, the
credit pre-scaling indicator computed by the source is the mean of the
raw negated spreads, `[0, -3]`, while the unweighted mean of the
population-std directional z-scores the claim prescribes is `[1, -1]`.
The two disagree, so the credit component does not z-score its
contributors. -/
theorem C3_mean_of_zscores_counterexample :
    meanComps (creditComps
        ⟨[1, 2], [("HY_OAS", [some 0, some 2]), ("IG_OAS", [some 0, some 4])]⟩) =
      [some 0, some (-3)] ∧
    meanComps [sneg (specZscore [some 0, some 2]), sneg (specZscore [some 0, some 4])] =
      [some 1, some (-1)] ∧
    ([some 0, some (-3)] : Series) ≠ [some 1, some (-1)] := by
  refine ⟨by with_unfolding_all rfl, by with_unfolding_all rfl, ?_⟩
  intro h
  injection h with h1 _
  exact absurd (Option.some.inj h1) (by norm_num)

theorem meanComps_sneg_pair : ∀ (a b : Series),
    meanComps [sneg a, sneg b] =
      List.zipWith (fun u v =>
        match u, v with
        | some x, some y => some ((-x + -y) / 2)
        | _, _ => none) a b := by
  intro a
  induction a with
  | nil => intro b; rfl
  | cons u ra ih =>
      intro b
      cases b with
      | nil => rfl
      | cons v rb =>
          have ihr := ih rb
          simp only [meanComps, ssum, List.foldl, List.length_cons, List.length_nil,
            Nat.cast_ofNat] at ihr ⊢
          simp only [sneg, List.map_cons, sadd, List.zipWith_cons_cons, List.map_cons] at ihr ⊢
          cases u <;> cases v <;>
            exact List.cons_eq_cons.mpr ⟨rfl, ihr⟩

/-- C3 (amended): the credit component averages the raw negated OAS
series without any z-scoring (its pre-scaling indicator is the
pointwise mean of `-HY_OAS` and `-IG_OAS`), while the fed-liquidity
component averages directional z-scores that divide by the *sample*
standard deviation (`ddof = 1`, the square root of `sampleVar`), and a
contributor whose std is not positive is dropped from the mean rather
than contributing an all-zero z-score series. -/
theorem C3_indicator_mix_amended (df1 df2 : DFrame) (hy ig fed tga rrp : Series)
    (hhy : getCol df1 "HY_OAS" = some hy) (hig : getCol df1 "IG_OAS" = some ig)
    (hfed : getCol df2 "Fed_Balance_Sheet" = some fed)
    (htga : getColD df2 "TGA_Balance" "closing_balance" = some tga)
    (hrrp : getCol df2 "RRP_Usage" = some rrp)
    (h1 : stdPos fed = true) (h2 : stdPos tga = true) :
    creditComps df1 = [sneg hy, sneg ig] ∧
    meanComps (creditComps df1) =
      List.zipWith (fun u v =>
        match u, v with
        | some x, some y => some ((-x + -y) / 2)
        | _, _ => none) hy ig ∧
    (stdPos rrp = true →
      fedComps df2 = [zscoreS fed, sneg (zscoreS tga), sneg (zscoreS rrp)]) ∧
    (stdPos rrp = false → fedComps df2 = [zscoreS fed, sneg (zscoreS tga)]) := by
  have hcred : creditComps df1 = [sneg hy, sneg ig] := by
    rw [creditComps, hhy, hig]
    rfl
  refine ⟨hcred, ?_, ?_, ?_⟩
  · rw [hcred]
    exact meanComps_sneg_pair hy ig
  · intro hr
    rw [fedComps, hfed, htga, hrrp]
    simp [h1, h2, hr]
  · intro hr
    rw [fedComps, hfed, htga, hrrp]
    simp [h1, h2, hr]

theorem C3_indicator_mix_amended_witness :
    creditComps ⟨[1, 2], [("HY_OAS", [some 0, some 2]), ("IG_OAS", [some 0, some 4])]⟩ =
      [sneg [some 0, some 2], sneg [some 0, some 4]] ∧
    meanComps (creditComps
        ⟨[1, 2], [("HY_OAS", [some 0, some 2]), ("IG_OAS", [some 0, some 4])]⟩) =
      List.zipWith (fun u v =>
        match u, v with
        | some x, some y => some ((-x + -y) / 2)
        | _, _ => none) [some 0, some 2] [some 0, some 4] ∧
    (stdPos [some 1, some 1, some 1] = true →
      fedComps ⟨[1, 2, 3],
        [("Fed_Balance_Sheet", [some 0, some 2, some 4]),
         ("TGA_Balance", [some 0, some 4, some 8]),
         ("RRP_Usage", [some 1, some 1, some 1])]⟩ =
        [zscoreS [some 0, some 2, some 4], sneg (zscoreS [some 0, some 4, some 8]),
         sneg (zscoreS [some 1, some 1, some 1])]) ∧
    (stdPos [some 1, some 1, some 1] = false →
      fedComps ⟨[1, 2, 3],
        [("Fed_Balance_Sheet", [some 0, some 2, some 4]),
         ("TGA_Balance", [some 0, some 4, some 8]),
         ("RRP_Usage", [some 1, some 1, some 1])]⟩ =
        [zscoreS [some 0, some 2, some 4], sneg (zscoreS [some 0, some 4, some 8])]) :=
  C3_indicator_mix_amended
    ⟨[1, 2], [("HY_OAS", [some 0, some 2]), ("IG_OAS", [some 0, some 4])]⟩
    ⟨[1, 2, 3],
      [("Fed_Balance_Sheet", [some 0, some 2, some 4]),
       ("TGA_Balance", [some 0, some 4, some 8]),
       ("RRP_Usage", [some 1, some 1, some 1])]⟩
    [some 0, some 2] [some 0, some 4]
    [some 0, some 2, some 4] [some 0, some 4, some 8] [some 1, some 1, some 1]
    rfl rfl rfl rfl rfl
    (by with_unfolding_all rfl) (by with_unfolding_all rfl)

/-! ## C10: the leading-growth component lags its inputs -/

theorem shiftS_getD_zero (s : Series) : (shiftS s).getD 0 none = none := by
  cases s with
  | nil => rfl
  | cons a t => rfl

theorem shiftS_getD_succ {s : Series} {i : ℕ} (h : i + 1 < s.length) :
    (shiftS s).getD (i + 1) none = s.getD i none := by
  cases s with
  | nil => simp at h
  | cons a t =>
      show ((a :: t).dropLast).getD i none = (a :: t).getD i none
      have hlen : i < ((a :: t).dropLast).length := by
        rw [List.length_dropLast]
        omega
      rw [List.getD_eq_getElem _ _ hlen, List.getD_eq_getElem _ _ (by omega),
        List.getElem_dropLast]

theorem map_const_none_getD (s : Series) (i : ℕ) :
    (s.map (fun _ => (none : Val))).getD i none = none := by
  rcases getD_none_or_mem (s.map (fun _ => none)) i with h0 | hm
  · exact h0
  · obtain ⟨w, _, hval⟩ := List.mem_map.1 hm
    exact hval.symm

theorem zscoreS_getD_none {s : Series} {i : ℕ} (h : s.getD i none = none) :
    (zscoreS s).getD i none = none := by
  rw [zscoreS]
  split
  · rw [getD_map_optionMap, h]
    rfl
  · exact map_const_none_getD s i

theorem sneg_getD_none {s : Series} {i : ℕ} (h : s.getD i none = none) :
    (sneg s).getD i none = none := by
  rw [sneg, getD_map_optionMap, h]
  rfl

theorem sadd_getD_none_left {a b : Series} {i : ℕ} (h : a.getD i none = none) :
    (sadd a b).getD i none = none := by
  by_cases hlen : i < (sadd a b).length
  · have hia : i < a.length := by
      rw [sadd, List.length_zipWith] at hlen
      omega
    have ha : a[i] = none := by
      rw [← List.getD_eq_getElem a none hia]
      exact h
    rw [List.getD_eq_getElem _ _ hlen]
    rw [show (sadd a b)[i] = _ from List.getElem_zipWith, ha]
  · rw [List.getD_eq_default _ _ (by omega)]

theorem foldl_sadd_getD_none {i : ℕ} :
    ∀ (r : List Series) (acc : Series), acc.getD i none = none →
      (r.foldl sadd acc).getD i none = none := by
  intro r
  induction r with
  | nil => intro acc h; exact h
  | cons b rest ih =>
      intro acc h
      exact ih (sadd acc b) (sadd_getD_none_left h)

theorem meanComps_getD_none {l : List Series} {i : ℕ}
    (h : ∀ t ∈ l, t.getD i none = none) : (meanComps l).getD i none = none := by
  rw [meanComps, getD_map_optionMap]
  cases l with
  | nil => rfl
  | cons a r =>
      rw [show ssum (a :: r) = r.foldl sadd a from rfl,
        foldl_sadd_getD_none r a (h a (by simp))]
      rfl

/-- C10: the leading-growth component shifts both raw inputs by one
period *before* z-scoring them, so the value entering the indicator at
each position is the raw value of the immediately preceding position,
and the pre-scaling indicator at the first date is missing. -/
theorem C10_growth_lags_inputs (df : DFrame) (s c : Series)
    (hism : getCol df "ISM_Spread" = some s)
    (hclaims : getColD df "Initial_Claims_4WMA" "Initial_Claims" = some c) :
    growthComps df =
      (if stdPos (shiftS s) then [zscoreS (shiftS s)] else []) ++
      (if stdPos (shiftS c) then [sneg (zscoreS (shiftS c))] else []) ∧
    (shiftS s).getD 0 none = none ∧ (shiftS c).getD 0 none = none ∧
    (∀ i, i + 1 < s.length → (shiftS s).getD (i + 1) none = s.getD i none) ∧
    (∀ i, i + 1 < c.length → (shiftS c).getD (i + 1) none = c.getD i none) ∧
    (meanComps (growthComps df)).getD 0 none = none := by
  have hlag : growthLagged df = (some (shiftS s), some (shiftS c)) := by
    rw [growthLagged, hism, hclaims]
    rfl
  have hcomps : growthComps df =
      (if stdPos (shiftS s) then [zscoreS (shiftS s)] else []) ++
      (if stdPos (shiftS c) then [sneg (zscoreS (shiftS c))] else []) := by
    rw [growthComps, hlag]
  refine ⟨hcomps, shiftS_getD_zero s, shiftS_getD_zero c,
    fun i h => shiftS_getD_succ h, fun i h => shiftS_getD_succ h, ?_⟩
  apply meanComps_getD_none
  intro t ht
  rw [hcomps] at ht
  rcases List.mem_append.1 ht with h | h
  · by_cases hstd : stdPos (shiftS s)
    · rw [if_pos hstd] at h
      rcases List.mem_cons.1 h with rfl | hf
      · exact zscoreS_getD_none (shiftS_getD_zero s)
      · cases hf
    · rw [if_neg hstd] at h
      cases h
  · by_cases hstd : stdPos (shiftS c)
    · rw [if_pos hstd] at h
      rcases List.mem_cons.1 h with rfl | hf
      · exact sneg_getD_none (zscoreS_getD_none (shiftS_getD_zero c))
      · cases hf
    · rw [if_neg hstd] at h
      cases h

theorem C10_growth_lags_inputs_witness :
    growthComps ⟨[1, 2, 3],
        [("ISM_Spread", [some 0, some 2, some 4]),
         ("Initial_Claims_4WMA", [some 1, some 5, some 9])]⟩ =
      (if stdPos (shiftS [some 0, some 2, some 4])
        then [zscoreS (shiftS [some 0, some 2, some 4])] else []) ++
      (if stdPos (shiftS [some 1, some 5, some 9])
        then [sneg (zscoreS (shiftS [some 1, some 5, some 9]))] else []) ∧
    (shiftS [some 0, some 2, some 4]).getD 0 none = none ∧
    (shiftS [some 1, some 5, some 9]).getD 0 none = none ∧
    (∀ i, i + 1 < ([some 0, some 2, some 4] : Series).length →
      (shiftS [some 0, some 2, some 4]).getD (i + 1) none =
        ([some 0, some 2, some 4] : Series).getD i none) ∧
    (∀ i, i + 1 < ([some 1, some 5, some 9] : Series).length →
      (shiftS [some 1, some 5, some 9]).getD (i + 1) none =
        ([some 1, some 5, some 9] : Series).getD i none) ∧
    (meanComps (growthComps ⟨[1, 2, 3],
        [("ISM_Spread", [some 0, some 2, some 4]),
         ("Initial_Claims_4WMA", [some 1, some 5, some 9])]⟩)).getD 0 none = none :=
  C10_growth_lags_inputs
    ⟨[1, 2, 3],
      [("ISM_Spread", [some 0, some 2, some 4]),
       ("Initial_Claims_4WMA", [some 1, some 5, some 9])]⟩
    [some 0, some 2, some 4] [some 1, some 5, some 9] rfl rfl
